import Mathlib

/-
  Verification development for the tr069-path-expander Go package.

  The package implements an incremental TR-069 wildcard path expansion
  engine (`Expander` in expander.go, with the path tree in pathtree.go
  and index extraction in extractIndices).  This file gives a shallow
  embedding of that code: Go strings are lists of characters, Go maps
  are association lists in insertion order (Go map iteration order is
  unspecified; the embedding fixes insertion order, which is the only
  source of nondeterminism and is irrelevant to the claims proved
  here), and Go slices are lists.  Machine-integer overflow of
  `strconv.Atoi` is not modelled (indices are unbounded integers).
-/

namespace TR069

/-- Go strings, modelled as lists of characters. -/
abbrev Str := List Char

/-- `strings.Split(s, ".")`: split on every dot; `Split("", ".") = [""]`. -/
def splitOnDot : Str → List Str
  | [] => [[]]
  | c :: cs =>
    if c = '.' then [] :: splitOnDot cs
    else
      match splitOnDot cs with
      | [] => [[c]]
      | s :: ss => (c :: s) :: ss

/-- Joining segments with dots, as the Go code does when it rebuilds a
path from `strings.Split` output. -/
def joinDots (l : List Str) : Str := List.intercalate ['.'] l

/-- `strings.HasPrefix(s, pre)`. -/
def strHasPref : Str → Str → Bool
  | _, [] => true
  | [], _ :: _ => false
  | c :: cs, p :: ps => c = p && strHasPref cs ps

/-- `strings.TrimSuffix(s, ".")`: drop one trailing dot if present. -/
def trimSuffixDot (s : Str) : Str :=
  if s.getLast? = some '.' then s.dropLast else s

/-- All-digit parse used by `strconv.Atoi` after the optional sign. -/
def atoiDigits (s : Str) : Option Nat :=
  if s = [] then none
  else if s.all (fun c => c.isDigit) then
    some (s.foldl (fun n c => n * 10 + (c.toNat - '0'.toNat)) 0)
  else none

/-- `strconv.Atoi`: optional sign followed by digits (overflow not
modelled). -/
def atoi : Str → Option Int
  | [] => none
  | '+' :: ds => (atoiDigits ds).map (fun n => (n : Int))
  | '-' :: ds => (atoiDigits ds).map (fun n => -(n : Int))
  | ds => (atoiDigits ds).map (fun n => (n : Int))

/-- `strconv.Itoa`. -/
def itoa (i : Int) : Str :=
  if i < 0 then '-' :: Nat.toDigits 10 i.natAbs
  else Nat.toDigits 10 i.toNat

/-- `sort.Ints`: sort ascending. -/
def sortInts (l : List Int) : List Int := l.insertionSort (· ≤ ·)

/-- `sort.Strings`: sort ascending in the lexicographic byte order. -/
def sortStrs (l : List Str) : List Str := l.insertionSort (· ≤ ·)

/-- `extractIndices`'s loop over the parameter names, threading the
accumulated index list (the Go code keeps the `seen` set and the
`indices` slice in lockstep, so one list suffices). -/
def extractLoop (pw : Str) : List Str → List Int → List Int
  | [], acc => acc
  | param :: ps, acc =>
    if strHasPref param (pw ++ ['.']) then
      let remainder := param.drop (pw.length + 1)
      let segment := remainder.takeWhile (fun c => c ≠ '.')
      match atoi segment with
      | some idx =>
        if idx ∈ acc then extractLoop pw ps acc
        else extractLoop pw ps (acc ++ [idx])
      | none => extractLoop pw ps acc
    else extractLoop pw ps acc

/-- `extractIndices` from expander.go: collect the distinct indices
named directly under the discovery path, sorted ascending. -/
def extractIndices (discoveryPath : Str) (parameterNames : List Str) : List Int :=
  let pw := trimSuffixDot discoveryPath
  sortInts (extractLoop pw parameterNames [])

/-- Sanity check of the embedding on a mixed response. -/
theorem extractIndices_sanity :
    extractIndices "A.".data
      ["A.1".data, "A.x".data, "A.1".data, "B.2".data, "A.3.Sub".data] = [1, 3] := by decide

/-! ## The path tree (pathtree.go) -/

/-- The wildcard segment `"*"`. -/
def wcSeg : Str := ['*']

mutual
/-- `pathNode` from expander.go: one segment position in the tree.
Children are keyed by segment text; the Go `map[string]*pathNode` is
modelled as an association list in insertion order. -/
inductive pathNode : Type where
  | mk (segment : Str) (isWildcard : Bool) (isLeaf : Bool) (children : pathForest) : pathNode
/-- The children map of a `pathNode` (keys unique by construction). -/
inductive pathForest : Type where
  | nil : pathForest
  | cons (key : Str) (node : pathNode) (rest : pathForest) : pathForest
end

def pathNode.segment : pathNode → Str
  | .mk s _ _ _ => s

def pathNode.isWildcard : pathNode → Bool
  | .mk _ w _ _ => w

def pathNode.isLeaf : pathNode → Bool
  | .mk _ _ l _ => l

def pathNode.children : pathNode → pathForest
  | .mk _ _ _ c => c

theorem sizeOf_children_lt (n : pathNode) : sizeOf n.children < sizeOf n := by
  cases n with
  | mk s w l c => simp [pathNode.children]

/-- Lookup in the children map. -/
def pathForest.lookup : pathForest → Str → Option pathNode
  | .nil, _ => none
  | .cons k n rest, key => if k = key then some n else rest.lookup key

/-- `current.children[segment] = child`: replace the binding if the key
exists, otherwise append it (insertion order). -/
def pathForest.setChild : pathForest → Str → pathNode → pathForest
  | .nil, key, n => .cons key n .nil
  | .cons k m rest, key, n =>
    if k = key then .cons k n rest else .cons k m (rest.setChild key n)

/-- Mark a node as terminating a pattern. -/
def pathNode.setLeaf : pathNode → pathNode
  | .mk s w _ c => .mk s w true c

/-- The loop body of `pathTree.addPath`: walk the segment chain,
creating nodes as needed, and mark the last segment's node as a leaf. -/
def insertSegs (node : pathNode) : List Str → pathNode
  | [] => node
  | seg :: rest =>
    let child :=
      match node.children.lookup seg with
      | some c => c
      | none => pathNode.mk seg (decide (seg = wcSeg)) (decide (rest = [])) .nil
    let child := if rest = [] then child.setLeaf else child
    let child := insertSegs child rest
    pathNode.mk node.segment node.isWildcard node.isLeaf (node.children.setChild seg child)

/-- `pathTree.addPath`: split the path on dots and insert the chain.
The Go function never returns an error. -/
def addPath (root : pathNode) (path : Str) : pathNode :=
  insertSegs root (splitOnDot path)

/-- The discovery path for the current walk position: all segments but
the last, joined with dots, with a trailing dot when non-empty (the
loop in `collectDiscoveryPaths`). -/
def discPathOf (cur : Str) : Str :=
  let segments := splitOnDot cur
  let d := joinDots segments.dropLast
  if d ≠ [] then d ++ ['.'] else d

mutual
/-- `pathTree.collectDiscoveryPaths`: walk the tree; at a wildcard node
emit the discovery path (deduplicated) and stop; otherwise recurse. -/
def collectDiscoveryPaths (node : pathNode) (currentPath : Str) (paths : List Str) : List Str :=
  let cur :=
    if node.segment ≠ [] then
      (if currentPath ≠ [] then currentPath ++ ['.'] else currentPath) ++ node.segment
    else currentPath
  if node.isWildcard then
    let dp := discPathOf cur
    if dp ∈ paths then paths else paths ++ [dp]
  else
    collectDiscForest node.children cur paths
termination_by sizeOf node
decreasing_by exact sizeOf_children_lt node
/-- Iterate `collectDiscoveryPaths` over the children. -/
def collectDiscForest (f : pathForest) (cur : Str) (paths : List Str) : List Str :=
  match f with
  | .nil => paths
  | .cons _ c rest => collectDiscForest rest cur (collectDiscoveryPaths c cur paths)
termination_by sizeOf f
decreasing_by all_goals simp_wf <;> omega
end

/-- `pathTree.getDiscoveryPaths`. -/
def getDiscoveryPaths (root : pathNode) : List Str :=
  collectDiscoveryPaths root [] []

/-- The descent loop of `pathTree.findNextWildcard`: follow the
expanded path's segments, matching numeric segments against a wildcard
child when no exact child exists. -/
def walkSegs (node : pathNode) : List Str → Option pathNode
  | [] => some node
  | seg :: rest =>
    match node.children.lookup seg with
    | some c => walkSegs c rest
    | none =>
      if (atoi seg).isSome then
        match node.children.lookup wcSeg with
        | some w => walkSegs w rest
        | none => none
      else none

mutual
/-- `pathTree.findNextWildcardFrom`: search below `node` for the next
wildcard level; the empty string means "not found" as in the Go code. -/
def findNextWildcardFrom (node : pathNode) (basePath : Str) : Str :=
  let r := fnwfForest node.children basePath
  if r ≠ [] then r
  else if (node.children.lookup wcSeg).isSome then basePath ++ ['.'] else []
termination_by sizeOf node
decreasing_by exact sizeOf_children_lt node
/-- The loop over the children inside `findNextWildcardFrom`. -/
def fnwfForest (f : pathForest) (basePath : Str) : Str :=
  match f with
  | .nil => []
  | .cons k c rest =>
    if k = wcSeg then fnwfForest rest basePath
    else
      let nextPath := basePath ++ ['.'] ++ k
      if (c.children.lookup wcSeg).isSome then nextPath ++ ['.']
      else if ¬ c.isLeaf then
        let r := findNextWildcardFrom c nextPath
        if r ≠ [] then r else fnwfForest rest basePath
      else fnwfForest rest basePath
termination_by sizeOf f
decreasing_by all_goals simp_wf <;> omega
end

/-- `pathTree.findNextWildcard`. -/
def findNextWildcard (root : pathNode) (expandedPath : Str) : Str :=
  match walkSegs root (splitOnDot expandedPath) with
  | none => []
  | some n => findNextWildcardFrom n expandedPath

/-- `pathTree.getNextLevelPaths`: for each discovered index, the
discovery path of the next wildcard below it, if any. -/
def getNextLevelPaths (root : pathNode) (discoveryPath : Str) (indices : List Int) : List Str :=
  if indices = [] then []
  else
    let pathWithoutDot := trimSuffixDot discoveryPath
    indices.foldl
      (fun acc idx =>
        let expandedPath := pathWithoutDot ++ ['.'] ++ itoa idx
        let nextWildcard := findNextWildcard root expandedPath
        if nextWildcard ≠ [] then acc ++ [nextWildcard] else acc)
      []

/-- Cache from discovery path to discovered indices
(`map[string][]int`, modelled as an insertion-ordered association
list). -/
abbrev Cache := List (Str × List Int)

def cacheFind (c : Cache) (k : Str) : Option (List Int) :=
  match c with
  | [] => none
  | (k', v) :: rest => if k' = k then some v else cacheFind rest k

def cacheSet (c : Cache) (k : Str) (v : List Int) : Cache :=
  match c with
  | [] => [(k, v)]
  | (k', v') :: rest => if k' = k then (k', v) :: rest else (k', v') :: cacheSet rest k v

mutual
/-- `pathTree.expandPaths` on a non-root node: substitute cached
indices at wildcard nodes, emit accumulated paths at leaves. -/
def expandNode (node : pathNode) (currentPath : Str) (cache : Cache) (result : List Str) : List Str :=
  if node.isWildcard then
    let discoveryPath := if currentPath ≠ [] then currentPath ++ ['.'] else currentPath
    match cacheFind cache discoveryPath with
    | none => result
    | some indices =>
      if indices = [] then result
      else expandIdxs node.children currentPath indices cache result
  else
    let cur := (if currentPath ≠ [] then currentPath ++ ['.'] else currentPath) ++ node.segment
    if node.isLeaf then result ++ [cur]
    else expandForest node.children cur cache result
termination_by (sizeOf node, 0)
decreasing_by
  · exact Prod.Lex.left _ _ (sizeOf_children_lt node)
  · exact Prod.Lex.left _ _ (sizeOf_children_lt node)
/-- The per-index loop of the wildcard branch of `expandPaths`. -/
def expandIdxs (f : pathForest) (currentPath : Str) (indices : List Int) (cache : Cache) (result : List Str) : List Str :=
  match indices with
  | [] => result
  | idx :: rest =>
    let indexPath := (if currentPath ≠ [] then currentPath ++ ['.'] else currentPath) ++ itoa idx
    expandIdxs f currentPath rest cache (expandForest f indexPath cache result)
termination_by (sizeOf f, indices.length + 1)
decreasing_by
  · exact Prod.Lex.right _ (by omega)
  · exact Prod.Lex.right _ (by simp <;> omega)
/-- Iterate `expandPaths` over the children. -/
def expandForest (f : pathForest) (cur : Str) (cache : Cache) (result : List Str) : List Str :=
  match f with
  | .nil => result
  | .cons _ c rest => expandForest rest cur cache (expandNode c cur cache result)
termination_by (sizeOf f, 0)
decreasing_by
  · exact Prod.Lex.left _ _ (by simp_wf <;> omega)
  · exact Prod.Lex.left _ _ (by simp_wf <;> omega)
end

/-- `pathTree.generateExpandedPaths`: the root's children are expanded
with an empty accumulated path (the Go root special case). -/
def generateExpandedPathsT (root : pathNode) (cache : Cache) : List Str :=
  expandForest root.children [] cache []

/-! ## The Expander state machine (expander.go) -/

/-- The errors the expander can return.  `errNoDiscoveryAvailable` and
`errNotComplete` are the two `fmt.Errorf` errors of `Register` and
`Collect`; the latter carries the next discovery path it reports. -/
inductive GoErr : Type where
  | errInvalidPath : GoErr
  | errAlreadyComplete : GoErr
  | errNoDiscoveryAvailable : GoErr
  | errNotComplete (nextPath : Str) : GoErr
deriving DecidableEq

/-- The `Expander` struct.  `lastDiscoveryPath = ""` means no prefix is
outstanding. -/
structure Expander : Type where
  root : pathNode
  cache : Cache
  pendingDiscoveries : List Str
  processedDiscoveries : List Str
  expandedPaths : List Str
  expandedSet : List Str
  isComplete : Bool
  lastDiscoveryPath : Str

/-- Add to a Go `map[...]bool` used as a set. -/
def setAdd (l : List Str) (x : Str) : List Str :=
  if x ∈ l then l else l ++ [x]

/-- The shared enqueue loop of `generateDiscoveryPaths` and
`processNextLevel`: append each candidate that is neither processed nor
already pending. -/
def enqueueNew (processed : List Str) (pending : List Str) : List Str → List Str
  | [] => pending
  | d :: ds =>
    if d ∈ processed ∨ d ∈ pending then enqueueNew processed pending ds
    else enqueueNew processed (pending ++ [d]) ds

/-- `Expander.generateDiscoveryPaths`. -/
def generateDiscoveryPathsE (e : Expander) : Expander :=
  let cand := getDiscoveryPaths e.root
  { e with pendingDiscoveries := enqueueNew e.processedDiscoveries e.pendingDiscoveries cand }

/-- `Expander.processNextLevel`. -/
def processNextLevel (e : Expander) (discoveryPath : Str) (indices : List Int) : Expander :=
  let cand := getNextLevelPaths e.root discoveryPath indices
  { e with pendingDiscoveries := enqueueNew e.processedDiscoveries e.pendingDiscoveries cand }

/-- The dedup loop of `Expander.generateExpandedPaths`, threading the
`expandedPaths` slice and the `expandedSet` set. -/
def dedupLoop (paths set : List Str) : List Str → List Str × List Str
  | [] => (paths, set)
  | p :: ps =>
    if p ∈ set then dedupLoop paths set ps
    else dedupLoop (paths ++ [p]) (set ++ [p]) ps

/-- `Expander.generateExpandedPaths`: regenerate from the tree and the
cache, keep only paths not already present, sort the result. -/
def generateExpandedPathsE (e : Expander) : Expander :=
  let ps := generateExpandedPathsT e.root e.cache
  let pair := dedupLoop e.expandedPaths e.expandedSet ps
  { e with expandedPaths := sortStrs pair.1, expandedSet := pair.2 }

/-- The loop of `Expander.Add`: validate and insert each path, failing
fast on the first empty path (paths already inserted stay inserted). -/
def addLoop (e : Expander) : List Str → Option GoErr × Expander
  | [] => (none, e)
  | p :: ps =>
    if p = [] then (some .errInvalidPath, e)
    else addLoop { e with root := addPath e.root p } ps

/-- `Expander.Add`. -/
def Add (e : Expander) (paths : List Str) : Option GoErr × Expander :=
  if paths = [] then (none, e)
  else
    match addLoop { e with isComplete := false } paths with
    | (some err, e') => (some err, e')
    | (none, e') => (none, generateDiscoveryPathsE e')

/-- Termination measure for `Next`'s loop: the number of cache keys not
yet marked processed. -/
def unprocCacheCount (e : Expander) : Nat :=
  (e.cache.map Prod.fst).countP (fun k => decide (k ∉ e.processedDiscoveries))

theorem cacheFind_mem_keys {c : Cache} {k : Str} {v : List Int}
    (h : cacheFind c k = some v) : k ∈ c.map Prod.fst := by
  induction c with
  | nil => simp [cacheFind] at h
  | cons kv rest ih =>
    rw [cacheFind] at h
    by_cases hk : kv.1 = k
    · simp [hk]
    · simp only [hk, if_false] at h
      simp [ih h]

theorem countP_lt_of_mem {α : Type} (l : List α) (p q : α → Bool)
    (himp : ∀ a, q a = true → p a = true)
    (a : α) (ha : a ∈ l) (hp : p a = true) (hq : q a = false) :
    l.countP q < l.countP p := by
  induction l with
  | nil => simp at ha
  | cons b rest ih =>
    simp only [List.countP_cons]
    rcases List.mem_cons.mp ha with hb | hb
    · subst hb
      have hle := List.countP_mono_left (l := rest) (p := q) (q := p) (fun x _ hx => himp x hx)
      simp [hp, hq]
      omega
    · have hlt := ih hb
      by_cases hqb : q b = true
      · simp [hqb, himp b hqb]
        omega
      · simp only [Bool.not_eq_true] at hqb
        simp [hqb]
        by_cases hpb : p b = true
        · simp [hpb]
          omega
        · simp only [Bool.not_eq_true] at hpb
          simp [hpb]
          omega

theorem unprocCacheCount_setAdd_lt {e : Expander} {p : Str}
    (hmem : p ∈ e.cache.map Prod.fst) (hp : p ∉ e.processedDiscoveries) :
    ∀ pend, unprocCacheCount { e with pendingDiscoveries := pend, processedDiscoveries := setAdd e.processedDiscoveries p } < unprocCacheCount e := by
  intro pend
  unfold unprocCacheCount
  refine countP_lt_of_mem (e.cache.map Prod.fst)
    (fun k => decide (k ∉ e.processedDiscoveries))
    (fun k => decide (k ∉ setAdd e.processedDiscoveries p))
    ?_ p hmem ?_ ?_
  · intro a haq
    simp only [decide_eq_true_eq] at haq ⊢
    intro hmema
    apply haq
    unfold setAdd
    split
    · exact hmema
    · exact List.mem_append_left _ hmema
  · simp [hp]
  · simp only [decide_eq_false_iff_not, Decidable.not_not]
    unfold setAdd
    simp [hp]

/-- `Expander.Next`: pop pending discovery paths, skipping processed
ones and resolving cached ones via `processNextLevel`; return the first
unresolved one (recording it as outstanding), or mark the expander
complete and regenerate the expanded paths. -/
def Next (e : Expander) : (Str × Bool) × Expander :=
  match hpend : e.pendingDiscoveries with
  | [] =>
    let e1 := { e with isComplete := true }
    let e2 := generateExpandedPathsE e1
    ((([], false) : Str × Bool), e2)
  | path :: rest =>
    let e1 := { e with pendingDiscoveries := rest }
    if hproc : path ∈ e1.processedDiscoveries then Next e1
    else
      match hc : cacheFind e1.cache path with
      | some idxs =>
        let e2 := { e1 with processedDiscoveries := setAdd e1.processedDiscoveries path }
        let e3 := processNextLevel e2 path idxs
        Next e3
      | none => ((path, true), { e1 with lastDiscoveryPath := path })
termination_by (unprocCacheCount e, e.pendingDiscoveries.length)
decreasing_by
  · apply Prod.Lex.right
    simp [hpend]
  · apply Prod.Lex.left
    exact unprocCacheCount_setAdd_lt (cacheFind_mem_keys hc) hproc _

/-- `Expander.Register`. -/
def Register (e : Expander) (results : List Str) : Option GoErr × Expander :=
  if e.isComplete then (some .errAlreadyComplete, e)
  else if e.lastDiscoveryPath = [] then (some .errNoDiscoveryAvailable, e)
  else
    let dp := e.lastDiscoveryPath
    let indices := extractIndices dp results
    let e1 := { e with cache := cacheSet e.cache dp indices,
                       processedDiscoveries := setAdd e.processedDiscoveries dp }
    let e2 := processNextLevel e1 dp indices
    (none, { e2 with lastDiscoveryPath := [] })

/-- `Expander.Collect`: when the completion flag is unset, drive `Next`
once; fail if it still yields a discovery path, otherwise return the
expanded paths. -/
def Collect (e : Expander) : (Option (List Str) × Option GoErr) × Expander :=
  if e.isComplete then ((some e.expandedPaths, none), e)
  else
    let r := Next e
    if r.1.2 then ((none, some (.errNotComplete r.1.1)), r.2)
    else ((some r.2.expandedPaths, none), r.2)

/-! ### Step equations for `Next` -/

theorem Next_eq_nil {e : Expander} (h : e.pendingDiscoveries = []) :
    Next e = (([], false), generateExpandedPathsE { e with isComplete := true }) := by
  rw [Next]
  split
  · rfl
  · rename_i path rest heq
    rw [h] at heq
    exact List.noConfusion heq

theorem Next_eq_cons_processed {e : Expander} {p : Str} {rest : List Str}
    (h : e.pendingDiscoveries = p :: rest) (h2 : p ∈ e.processedDiscoveries) :
    Next e = Next { e with pendingDiscoveries := rest } := by
  rw [Next]
  split
  · rename_i heq
    rw [h] at heq
    exact List.noConfusion heq
  · rename_i path rest' heq
    rw [h] at heq
    injection heq with h1 h2
    subst h1
    subst h2
    rw [dif_pos h2]

theorem Next_eq_cons_cached {e : Expander} {p : Str} {rest : List Str} {idxs : List Int}
    (h : e.pendingDiscoveries = p :: rest) (h2 : p ∉ e.processedDiscoveries)
    (h3 : cacheFind e.cache p = some idxs) :
    Next e = Next (processNextLevel
      { e with pendingDiscoveries := rest,
               processedDiscoveries := setAdd e.processedDiscoveries p } p idxs) := by
  rw [Next]
  split
  · rename_i heq
    rw [h] at heq
    exact List.noConfusion heq
  · rename_i path rest' heq
    rw [h] at heq
    injection heq with h1 h2
    subst h1
    subst h2
    rw [dif_neg h2]
    split
    · rename_i idxs' hc
      rw [h3] at hc
      cases hc
      rfl
    · rename_i hc
      rw [h3] at hc
      exact Option.noConfusion hc

theorem Next_eq_cons_ret {e : Expander} {p : Str} {r : List Str}
    (h : e.pendingDiscoveries = p :: r) (h2 : p ∉ e.processedDiscoveries)
    (h3 : cacheFind e.cache p = none) :
    Next e = ((p, true), { e with pendingDiscoveries := r, lastDiscoveryPath := p }) := by
  rw [Next]
  split
  · rename_i heq
    rw [h] at heq
    exact List.noConfusion heq
  · rename_i path rest' heq
    rw [h] at heq
    injection heq with h1 h2
    subst h1
    subst h2
    rw [dif_neg h2]
    split
    · rename_i idxs' hc
      rw [h3] at hc
      exact Option.noConfusion hc
    · rfl

/-! ### Field-preservation lemmas -/

@[simp] theorem processNextLevel_root (e : Expander) (dp : Str) (idxs : List Int) :
    (processNextLevel e dp idxs).root = e.root := rfl
@[simp] theorem processNextLevel_cache (e : Expander) (dp : Str) (idxs : List Int) :
    (processNextLevel e dp idxs).cache = e.cache := rfl
@[simp] theorem processNextLevel_processed (e : Expander) (dp : Str) (idxs : List Int) :
    (processNextLevel e dp idxs).processedDiscoveries = e.processedDiscoveries := rfl
@[simp] theorem processNextLevel_expandedPaths (e : Expander) (dp : Str) (idxs : List Int) :
    (processNextLevel e dp idxs).expandedPaths = e.expandedPaths := rfl
@[simp] theorem processNextLevel_expandedSet (e : Expander) (dp : Str) (idxs : List Int) :
    (processNextLevel e dp idxs).expandedSet = e.expandedSet := rfl
@[simp] theorem processNextLevel_isComplete (e : Expander) (dp : Str) (idxs : List Int) :
    (processNextLevel e dp idxs).isComplete = e.isComplete := rfl
@[simp] theorem processNextLevel_last (e : Expander) (dp : Str) (idxs : List Int) :
    (processNextLevel e dp idxs).lastDiscoveryPath = e.lastDiscoveryPath := rfl

@[simp] theorem generateExpandedPathsE_root (e : Expander) :
    (generateExpandedPathsE e).root = e.root := rfl
@[simp] theorem generateExpandedPathsE_cache (e : Expander) :
    (generateExpandedPathsE e).cache = e.cache := rfl
@[simp] theorem generateExpandedPathsE_pending (e : Expander) :
    (generateExpandedPathsE e).pendingDiscoveries = e.pendingDiscoveries := rfl
@[simp] theorem generateExpandedPathsE_processed (e : Expander) :
    (generateExpandedPathsE e).processedDiscoveries = e.processedDiscoveries := rfl
@[simp] theorem generateExpandedPathsE_isComplete (e : Expander) :
    (generateExpandedPathsE e).isComplete = e.isComplete := rfl
@[simp] theorem generateExpandedPathsE_last (e : Expander) :
    (generateExpandedPathsE e).lastDiscoveryPath = e.lastDiscoveryPath := rfl

@[simp] theorem generateDiscoveryPathsE_root (e : Expander) :
    (generateDiscoveryPathsE e).root = e.root := rfl
@[simp] theorem generateDiscoveryPathsE_cache (e : Expander) :
    (generateDiscoveryPathsE e).cache = e.cache := rfl
@[simp] theorem generateDiscoveryPathsE_processed (e : Expander) :
    (generateDiscoveryPathsE e).processedDiscoveries = e.processedDiscoveries := rfl
@[simp] theorem generateDiscoveryPathsE_expandedPaths (e : Expander) :
    (generateDiscoveryPathsE e).expandedPaths = e.expandedPaths := rfl
@[simp] theorem generateDiscoveryPathsE_expandedSet (e : Expander) :
    (generateDiscoveryPathsE e).expandedSet = e.expandedSet := rfl
@[simp] theorem generateDiscoveryPathsE_isComplete (e : Expander) :
    (generateDiscoveryPathsE e).isComplete = e.isComplete := rfl
@[simp] theorem generateDiscoveryPathsE_last (e : Expander) :
    (generateDiscoveryPathsE e).lastDiscoveryPath = e.lastDiscoveryPath := rfl

/-! ### General lemmas on `Next` -/

theorem Next_root (e : Expander) : (Next e).2.root = e.root := by
  induction e using Next.induct with
  | case1 x hpend => rw [Next_eq_nil hpend]; simp
  | case2 x path rest hpend e1 hproc ih => rw [Next_eq_cons_processed hpend hproc]; exact ih
  | case3 x path rest hpend e1 hproc idxs hc e2 e3 ih => rw [Next_eq_cons_cached hpend hproc hc]; exact ih
  | case4 x path rest hpend e1 hproc hc => rw [Next_eq_cons_ret hpend hproc hc]

theorem Next_cache (e : Expander) : (Next e).2.cache = e.cache := by
  induction e using Next.induct with
  | case1 x hpend => rw [Next_eq_nil hpend]; simp
  | case2 x path rest hpend e1 hproc ih => rw [Next_eq_cons_processed hpend hproc]; exact ih
  | case3 x path rest hpend e1 hproc idxs hc e2 e3 ih => rw [Next_eq_cons_cached hpend hproc hc]; exact ih
  | case4 x path rest hpend e1 hproc hc => rw [Next_eq_cons_ret hpend hproc hc]

theorem Next_processed_mono (e : Expander) :
    ∀ q ∈ e.processedDiscoveries, q ∈ (Next e).2.processedDiscoveries := by
  induction e using Next.induct with
  | case1 x hpend => rw [Next_eq_nil hpend]; simp
  | case2 x path rest hpend e1 hproc ih => rw [Next_eq_cons_processed hpend hproc]; exact ih
  | case3 x path rest hpend e1 hproc idxs hc e2 e3 ih =>
    rw [Next_eq_cons_cached hpend hproc hc]
    intro q hq
    apply ih
    show q ∈ setAdd x.processedDiscoveries path
    unfold setAdd
    split
    · exact hq
    · exact List.mem_append_left _ hq
  | case4 x path rest hpend e1 hproc hc => rw [Next_eq_cons_ret hpend hproc hc]; exact fun q hq => hq

theorem Next_false_isComplete (e : Expander) (h : (Next e).1.2 = false) :
    (Next e).2.isComplete = true := by
  induction e using Next.induct with
  | case1 x hpend => rw [Next_eq_nil hpend]; simp
  | case2 x path rest hpend e1 hproc ih =>
    rw [Next_eq_cons_processed hpend hproc] at h ⊢; exact ih h
  | case3 x path rest hpend e1 hproc idxs hc e2 e3 ih =>
    rw [Next_eq_cons_cached hpend hproc hc] at h ⊢; exact ih h
  | case4 x path rest hpend e1 hproc hc => rw [Next_eq_cons_ret hpend hproc hc] at h; simp at h

theorem Next_false_pending (e : Expander) (h : (Next e).1.2 = false) :
    (Next e).2.pendingDiscoveries = [] := by
  induction e using Next.induct with
  | case1 x hpend => rw [Next_eq_nil hpend]; simp [hpend]
  | case2 x path rest hpend e1 hproc ih =>
    rw [Next_eq_cons_processed hpend hproc] at h ⊢; exact ih h
  | case3 x path rest hpend e1 hproc idxs hc e2 e3 ih =>
    rw [Next_eq_cons_cached hpend hproc hc] at h ⊢; exact ih h
  | case4 x path rest hpend e1 hproc hc => rw [Next_eq_cons_ret hpend hproc hc] at h; simp at h

theorem Next_false_last (e : Expander) (h : (Next e).1.2 = false) :
    (Next e).2.lastDiscoveryPath = e.lastDiscoveryPath := by
  induction e using Next.induct with
  | case1 x hpend => rw [Next_eq_nil hpend]; simp
  | case2 x path rest hpend e1 hproc ih =>
    rw [Next_eq_cons_processed hpend hproc] at h ⊢; exact ih h
  | case3 x path rest hpend e1 hproc idxs hc e2 e3 ih =>
    rw [Next_eq_cons_cached hpend hproc hc] at h ⊢; exact ih h
  | case4 x path rest hpend e1 hproc hc => rw [Next_eq_cons_ret hpend hproc hc] at h; simp at h

theorem Next_false_expanded (e : Expander) (h : (Next e).1.2 = false) :
    ∃ e1 : Expander, (Next e).2 = generateExpandedPathsE { e1 with isComplete := true } ∧
      e1.expandedPaths = e.expandedPaths ∧ e1.expandedSet = e.expandedSet := by
  induction e using Next.induct with
  | case1 x hpend => rw [Next_eq_nil hpend]; exact ⟨x, rfl, rfl, rfl⟩
  | case2 x path rest hpend e1 hproc ih =>
    rw [Next_eq_cons_processed hpend hproc] at h ⊢
    obtain ⟨e1, h1, h2, h3⟩ := ih h
    exact ⟨e1, h1, h2, h3⟩
  | case3 x path rest hpend e1 hproc idxs hc e2 e3 ih =>
    rw [Next_eq_cons_cached hpend hproc hc] at h ⊢
    obtain ⟨e1, h1, h2, h3⟩ := ih h
    exact ⟨e1, h1, h2, h3⟩
  | case4 x path rest hpend e1 hproc hc => rw [Next_eq_cons_ret hpend hproc hc] at h; simp at h

theorem Next_true_isComplete (e : Expander) (h : (Next e).1.2 = true) :
    (Next e).2.isComplete = e.isComplete := by
  induction e using Next.induct with
  | case1 x hpend => rw [Next_eq_nil hpend] at h; simp at h
  | case2 x path rest hpend e1 hproc ih =>
    rw [Next_eq_cons_processed hpend hproc] at h ⊢; exact ih h
  | case3 x path rest hpend e1 hproc idxs hc e2 e3 ih =>
    rw [Next_eq_cons_cached hpend hproc hc] at h ⊢
    exact ih h
  | case4 x path rest hpend e1 hproc hc => rw [Next_eq_cons_ret hpend hproc hc]

theorem Next_true_last (e : Expander) (h : (Next e).1.2 = true) :
    (Next e).2.lastDiscoveryPath = (Next e).1.1 := by
  induction e using Next.induct with
  | case1 x hpend => rw [Next_eq_nil hpend] at h; simp at h
  | case2 x path rest hpend e1 hproc ih =>
    rw [Next_eq_cons_processed hpend hproc] at h ⊢; exact ih h
  | case3 x path rest hpend e1 hproc idxs hc e2 e3 ih =>
    rw [Next_eq_cons_cached hpend hproc hc] at h ⊢; exact ih h
  | case4 x path rest hpend e1 hproc hc => rw [Next_eq_cons_ret hpend hproc hc]

theorem Next_true_not_processed (e : Expander) (h : (Next e).1.2 = true) :
    (Next e).1.1 ∉ e.processedDiscoveries := by
  induction e using Next.induct with
  | case1 x hpend => rw [Next_eq_nil hpend] at h; simp at h
  | case2 x path rest hpend e1 hproc ih =>
    rw [Next_eq_cons_processed hpend hproc] at h ⊢; exact ih h
  | case3 x path rest hpend e1 hproc idxs hc e2 e3 ih =>
    rw [Next_eq_cons_cached hpend hproc hc] at h ⊢
    intro hmem
    apply ih h
    show (Next (processNextLevel _ path idxs)).1.1 ∈ setAdd x.processedDiscoveries path
    unfold setAdd
    split
    · exact hmem
    · exact List.mem_append_left _ hmem
  | case4 x path rest hpend e1 hproc hc =>
    rw [Next_eq_cons_ret hpend hproc hc]
    exact hproc

theorem nlpFold_ne (root : pathNode) (pw : Str) :
    ∀ (l : List Int) (acc : List Str), (∀ x ∈ acc, x ≠ []) →
      ∀ x ∈ l.foldl
        (fun acc idx =>
          let expandedPath := pw ++ ['.'] ++ itoa idx
          let nextWildcard := findNextWildcard root expandedPath
          if nextWildcard ≠ [] then acc ++ [nextWildcard] else acc)
        acc, x ≠ [] := by
  intro l
  induction l with
  | nil => intro acc hacc x hx; exact hacc x hx
  | cons i rest ih =>
    intro acc hacc
    simp only [List.foldl_cons]
    apply ih
    intro x hx
    split at hx
    · rcases List.mem_append.mp hx with h | h
      · exact hacc x h
      · rename_i hnw
        rw [List.mem_singleton.mp h]
        exact hnw
    · exact hacc x hx

theorem getNextLevelPaths_ne_nil (root : pathNode) (dp : Str) (idxs : List Int) :
    ∀ x ∈ getNextLevelPaths root dp idxs, x ≠ [] := by
  unfold getNextLevelPaths
  split
  · simp
  · exact nlpFold_ne root (trimSuffixDot dp) idxs [] (by simp)

theorem enqueueNew_forall {P : Str → Prop} (proc : List Str) :
    ∀ (ds pending : List Str), (∀ q ∈ pending, P q) → (∀ d ∈ ds, P d) →
      ∀ q ∈ enqueueNew proc pending ds, P q := by
  intro ds
  induction ds with
  | nil => intro pending hp _ q hq; exact hp q hq
  | cons d rest ih =>
    intro pending hp hd
    unfold enqueueNew
    split
    · exact ih pending hp (fun x hx => hd x (List.mem_cons_of_mem _ hx))
    · apply ih (pending ++ [d])
      · intro q hq
        rcases List.mem_append.mp hq with h | h
        · exact hp q h
        · rw [List.mem_singleton.mp h]
          exact hd d (List.mem_cons_self _ _)
      · exact fun x hx => hd x (List.mem_cons_of_mem _ hx)

theorem Next_pending_ne (e : Expander)
    (hpe : ∀ q ∈ e.pendingDiscoveries, q ≠ []) :
    ((Next e).1.2 = true → (Next e).1.1 ≠ []) ∧
      (∀ q ∈ (Next e).2.pendingDiscoveries, q ≠ []) := by
  induction e using Next.induct with
  | case1 x hpend =>
    rw [Next_eq_nil hpend]
    exact ⟨by simp, by simp [hpend]⟩
  | case2 x path rest hpend e1 hproc ih =>
    rw [Next_eq_cons_processed hpend hproc]
    exact ih (fun q hq => hpe q (hpend ▸ List.mem_cons_of_mem _ hq))
  | case3 x path rest hpend e1 hproc idxs hc e2 e3 ih =>
    rw [Next_eq_cons_cached hpend hproc hc]
    apply ih
    show ∀ q ∈ enqueueNew (setAdd x.processedDiscoveries path) rest
      (getNextLevelPaths x.root path idxs), q ≠ []
    apply enqueueNew_forall
    · exact fun q hq => hpe q (hpend ▸ List.mem_cons_of_mem _ hq)
    · exact getNextLevelPaths_ne_nil _ _ _
  | case4 x path rest hpend e1 hproc hc =>
    rw [Next_eq_cons_ret hpend hproc hc]
    constructor
    · exact fun _ => hpe path (hpend ▸ List.mem_cons_self _ _)
    · exact fun q hq => hpe q (hpend ▸ List.mem_cons_of_mem _ hq)

/-- `Next` never consults the outstanding-request marker: its result on
a state with a replaced `lastDiscoveryPath` is the same, except that on
completion the replaced marker survives untouched. -/
theorem Next_last_irrel (e : Expander) :
    ∀ l : Str, Next { e with lastDiscoveryPath := l } =
      ((Next e).1,
        if (Next e).1.2 then (Next e).2 else { (Next e).2 with lastDiscoveryPath := l }) := by
  induction e using Next.induct with
  | case1 x hpend =>
    intro l
    have hL : ({ x with lastDiscoveryPath := l } : Expander).pendingDiscoveries = [] := hpend
    rw [Next_eq_nil hL, Next_eq_nil hpend]
    simp only [Bool.false_eq_true, if_false]
    rfl
  | case2 x path rest hpend e1 hproc ih =>
    intro l
    have hL : ({ x with lastDiscoveryPath := l } : Expander).pendingDiscoveries = path :: rest := hpend
    rw [Next_eq_cons_processed hL hproc, Next_eq_cons_processed hpend hproc]
    exact ih l
  | case3 x path rest hpend e1 hproc idxs hc e2 e3 ih =>
    intro l
    have hL : ({ x with lastDiscoveryPath := l } : Expander).pendingDiscoveries = path :: rest := hpend
    rw [Next_eq_cons_cached hL hproc hc, Next_eq_cons_cached hpend hproc hc]
    exact ih l
  | case4 x path rest hpend e1 hproc hc =>
    intro l
    have hL : ({ x with lastDiscoveryPath := l } : Expander).pendingDiscoveries = path :: rest := hpend
    rw [Next_eq_cons_ret hL hproc hc, Next_eq_cons_ret hpend hproc hc]
    simp

/-- A fresh expander, as produced by the pool's `New`/`Reset`. -/
def Expander.empty : Expander :=
  { root := pathNode.mk [] false false .nil
    cache := []
    pendingDiscoveries := []
    processedDiscoveries := []
    expandedPaths := []
    expandedSet := []
    isComplete := false
    lastDiscoveryPath := [] }

/-! ### A concrete run used by several counterexamples: pattern `A.*.B` -/

/-- The tree after `Add(["A.*.B"])`. -/
def cxTreeAB : pathNode :=
  pathNode.mk [] false false
    (pathForest.cons "A".data
      (pathNode.mk "A".data false false
        (pathForest.cons "*".data
          (pathNode.mk "*".data true false
            (pathForest.cons "B".data (pathNode.mk "B".data false true .nil) .nil))
          .nil))
      .nil)

/-- State after `Add(["A.*.B"])` on a fresh expander. -/
def cxE0 : Expander :=
  { Expander.empty with root := cxTreeAB, pendingDiscoveries := ["A.".data] }

/-- State after the first `Next()`: the prefix `A.` is outstanding. -/
def cxE1 : Expander :=
  { cxE0 with pendingDiscoveries := [], lastDiscoveryPath := "A.".data }

/-- State after a second `Next()`: completion was declared although
`A.` is still outstanding. -/
def cxE2 : Expander := { cxE1 with isComplete := true }

theorem cx_add : (Add Expander.empty ["A.*.B".data]).2 = cxE0 := by
  simp +decide [cxE0, cxTreeAB, Add, addLoop, Expander.empty, addPath, insertSegs, splitOnDot,
    generateDiscoveryPathsE, getDiscoveryPaths, collectDiscoveryPaths, collectDiscForest,
    enqueueNew, discPathOf, joinDots, pathNode.children, pathNode.segment, pathNode.isWildcard,
    pathNode.isLeaf, pathForest.lookup, pathForest.setChild, pathNode.setLeaf, wcSeg,
    List.intercalate]

theorem cx_next0 : Next cxE0 = (("A.".data, true), cxE1) := by
  rw [Next_eq_cons_ret (e := cxE0) (p := "A.".data) (r := [])
    rfl (by simp [cxE0, Expander.empty]) (by rfl)]
  rfl

theorem cx_next1 : Next cxE1 = (([], false), cxE2) := by
  rw [Next_eq_nil rfl]
  simp +decide [cxE1, cxE2, cxE0, cxTreeAB, Expander.empty, generateExpandedPathsE,
    generateExpandedPathsT, expandNode, expandIdxs, expandForest, cacheFind, dedupLoop,
    sortStrs, pathNode.children, pathNode.segment, pathNode.isWildcard, pathNode.isLeaf]

/-! ## Claim C1 -/

/-- C1 counterexample.  The claim says `Collect()` fails with
`NotComplete` whenever a prefix is outstanding and leaves the state
unchanged.  In the run `Add(["A.*.B"])`, `Next() = ("A.", true)`, the
prefix `A.` is outstanding and the queue is empty, yet `Collect()`
succeeds (no error, returning the empty path list) and flips the
completion flag — it drives `Next` itself. -/
theorem collect_succeeds_while_outstanding :
    (Add Expander.empty ["A.*.B".data]).2 = cxE0 ∧
    Next cxE0 = (("A.".data, true), cxE1) ∧
    cxE1.lastDiscoveryPath = "A.".data ∧
    cxE1.isComplete = false ∧
    (Collect cxE1).1 = (some [], none) ∧
    (Collect cxE1).2.isComplete = true := by
  refine ⟨cx_add, cx_next0, rfl, rfl, ?_, ?_⟩ <;>
    · unfold Collect
      rw [if_neg (by simp [cxE1, cxE0, Expander.empty]), cx_next1]
      rfl

/-- C1 (amended): when the completion flag is set, `Collect` succeeds
with the stored expanded paths and leaves the state unchanged.
Otherwise `Collect` itself drives discovery by calling `Next` once (so
it does mutate the engine): it fails — with an error naming the next
discovery path — exactly when that `Next` yields another prefix, and it
succeeds, even while a prefix is outstanding awaiting `Register`, when
that `Next` declares completion; either way the engine ends in the
post-`Next` state. -/
theorem collect_drives_next_contract :
    (∀ e : Expander, e.isComplete = true →
      Collect e = ((some e.expandedPaths, none), e)) ∧
    (∀ e : Expander, e.isComplete = false →
      (Collect e).2 = (Next e).2 ∧
      ((Next e).1.2 = true →
        (Collect e).1 = (none, some (GoErr.errNotComplete (Next e).1.1))) ∧
      ((Next e).1.2 = false →
        (Collect e).1 = (some (Next e).2.expandedPaths, none))) := by
  constructor
  · intro e h
    unfold Collect
    rw [if_pos h]
  · intro e h
    unfold Collect
    rw [if_neg (by simp [h])]
    cases hb : (Next e).1.2 <;> simp [hb]

/-- Witness for C1's amended theorem at concrete states. -/
theorem collect_drives_next_contract_witness :
    (Collect cxE2 = ((some cxE2.expandedPaths, none), cxE2)) ∧
    ((Collect cxE1).2 = (Next cxE1).2 ∧
      ((Next cxE1).1.2 = true →
        (Collect cxE1).1 = (none, some (GoErr.errNotComplete (Next cxE1).1.1))) ∧
      ((Next cxE1).1.2 = false →
        (Collect cxE1).1 = (some (Next cxE1).2.expandedPaths, none))) :=
  ⟨collect_drives_next_contract.1 cxE2 rfl, collect_drives_next_contract.2 cxE1 rfl⟩

/-! ## Claim C2 -/

/-- C2 counterexample.  The claim says `Next()` never declares
completion while a prefix is outstanding with no intervening
`Register`.  After `Add(["A.*.B"])` and one `Next()` (no `Register`),
`A.` is outstanding; the second `Next()` nevertheless returns
`("", false)` and sets the completion flag. -/
theorem completion_declared_while_outstanding :
    Next cxE0 = (("A.".data, true), cxE1) ∧
    cxE1.lastDiscoveryPath = "A.".data ∧
    (Next cxE1).1 = ([], false) ∧
    (Next cxE1).2.isComplete = true := by
  refine ⟨cx_next0, rfl, ?_, ?_⟩ <;> rw [cx_next1] <;> rfl

/-- C2 (amended): the engine is marked complete exactly when the
pending queue is exhausted, regardless of the outstanding-request
marker: for an incomplete engine, `Next` returns `hasMore = false` iff
it sets the completion flag; the returned value of `Next` does not
depend on the outstanding marker at all; and whenever `Next` declares
completion the pending queue is empty. -/
theorem completion_queue_only_contract :
    (∀ e : Expander, e.isComplete = false →
      (((Next e).1.2 = false) ↔ (Next e).2.isComplete = true)) ∧
    (∀ (e : Expander) (l : Str),
      (Next { e with lastDiscoveryPath := l }).1 = (Next e).1) ∧
    (∀ e : Expander, (Next e).1.2 = false → (Next e).2.pendingDiscoveries = []) := by
  refine ⟨?_, ?_, fun e h => Next_false_pending e h⟩
  · intro e h
    constructor
    · exact fun hf => Next_false_isComplete e hf
    · intro hc
      by_contra hf
      rw [Bool.not_eq_false] at hf
      have ht := Next_true_isComplete e hf
      rw [ht, h] at hc
      exact Bool.noConfusion hc
  · intro e l
    rw [Next_last_irrel e l]

/-- Witness for C2's amended theorem at concrete states. -/
theorem completion_queue_only_contract_witness :
    (((Next cxE1).1.2 = false) ↔ (Next cxE1).2.isComplete = true) ∧
    (Next { cxE1 with lastDiscoveryPath := "Z.".data }).1 = (Next cxE1).1 ∧
    ((Next cxE1).1.2 = false → (Next cxE1).2.pendingDiscoveries = []) :=
  ⟨completion_queue_only_contract.1 cxE1 rfl,
   completion_queue_only_contract.2.1 cxE1 "Z.".data,
   completion_queue_only_contract.2.2 cxE1⟩

/-! ## Claim C3 -/

/-- C3 counterexample.  The claim says a second `Next()` while a prefix
is outstanding re-returns the same prefix with `hasMore = true`.  After
`Add(["A.*.B"])`, the first `Next()` returns `("A.", true)`; the second
`Next()` returns `("", false)` — not the outstanding `("A.", true)` —
declaring completion instead of re-reading. -/
theorem next_reread_not_idempotent :
    Next cxE0 = (("A.".data, true), cxE1) ∧
    cxE1.lastDiscoveryPath = "A.".data ∧
    (Next cxE1).1 = ([], false) ∧
    (Next cxE1).1 ≠ ("A.".data, true) := by
  refine ⟨cx_next0, rfl, ?_, ?_⟩
  · rw [cx_next1]
  · rw [cx_next1]
    simp

/-- C3 (amended): calling `Next()` while a prefix is outstanding does
not re-return it; `Next` behaves exactly as if nothing were
outstanding — it dequeues the next pending prefix or declares
completion — and the old outstanding prefix is dropped: on a successful
dequeue the returned prefix overwrites the marker, and on completion
the stale marker is merely left in place. -/
theorem next_ignores_outstanding_contract :
    ∀ e : Expander, e.lastDiscoveryPath ≠ [] →
      (Next e).1 = (Next { e with lastDiscoveryPath := [] }).1 ∧
      ((Next e).1.2 = true → (Next e).2.lastDiscoveryPath = (Next e).1.1) ∧
      ((Next e).1.2 = false → (Next e).2.lastDiscoveryPath = e.lastDiscoveryPath) := by
  intro e _
  refine ⟨?_, fun ht => Next_true_last e ht, fun hf => Next_false_last e hf⟩
  rw [Next_last_irrel e []]

/-- Witness for C3's amended theorem at a concrete state. -/
theorem next_ignores_outstanding_contract_witness :
    ("A.".data : Str) ≠ [] ∧
    ((Next cxE1).1 = (Next { cxE1 with lastDiscoveryPath := [] }).1 ∧
      ((Next cxE1).1.2 = true → (Next cxE1).2.lastDiscoveryPath = (Next cxE1).1.1) ∧
      ((Next cxE1).1.2 = false →
        (Next cxE1).2.lastDiscoveryPath = cxE1.lastDiscoveryPath)) :=
  ⟨by simp, next_ignores_outstanding_contract cxE1 (by simp [cxE1])⟩

/-! ## Claim C5: index extraction -/

theorem sortInts_sorted (l : List Int) : (sortInts l).Sorted (· ≤ ·) :=
  List.sorted_insertionSort _ l

theorem sortInts_perm (l : List Int) : List.Perm (sortInts l) l :=
  List.perm_insertionSort _ l

/-- The condition under which one raw identifier contributes the index
`n` relative to the trimmed discovery path `pw`: the identifier starts
with `pw` plus the separator, and the following text up to the next
separator (or the end) parses as `n` under Go `Atoi` semantics. -/
def extractCond (pw : Str) (id : Str) (n : Int) : Prop :=
  strHasPref id (pw ++ ['.']) = true ∧
  atoi ((id.drop (pw.length + 1)).takeWhile (fun c => c ≠ '.')) = some n

instance (pw id : Str) (n : Int) : Decidable (extractCond pw id n) := by
  unfold extractCond
  infer_instance

theorem extractLoop_step_miss {pw p : Str} (ps : List Str) (acc : List Int)
    (h1 : ¬ strHasPref p (pw ++ ['.']) = true) :
    extractLoop pw (p :: ps) acc = extractLoop pw ps acc := by
  rw [extractLoop]
  simp [h1]

theorem extractLoop_step_nonnum {pw p : Str} (ps : List Str) (acc : List Int)
    (h1 : strHasPref p (pw ++ ['.']) = true)
    (h2 : atoi ((p.drop (pw.length + 1)).takeWhile (fun c => c ≠ '.')) = none) :
    extractLoop pw (p :: ps) acc = extractLoop pw ps acc := by
  rw [extractLoop]
  simp only [h1, if_true, h2]

theorem extractLoop_step_num {pw p : Str} (ps : List Str) (acc : List Int) {idx : Int}
    (h1 : strHasPref p (pw ++ ['.']) = true)
    (h2 : atoi ((p.drop (pw.length + 1)).takeWhile (fun c => c ≠ '.')) = some idx) :
    extractLoop pw (p :: ps) acc =
      if idx ∈ acc then extractLoop pw ps acc else extractLoop pw ps (acc ++ [idx]) := by
  rw [extractLoop]
  simp only [h1, if_true, h2]

theorem extractLoop_mem (pw : Str) :
    ∀ (ps : List Str) (acc : List Int) (n : Int),
      n ∈ extractLoop pw ps acc ↔ n ∈ acc ∨ ∃ id ∈ ps, extractCond pw id n := by
  intro ps
  induction ps with
  | nil => intro acc n; simp [extractLoop]
  | cons p rest ih =>
    intro acc n
    by_cases h1 : strHasPref p (pw ++ ['.']) = true
    · cases h2 : atoi ((p.drop (pw.length + 1)).takeWhile (fun c => c ≠ '.')) with
      | none =>
        rw [extractLoop_step_nonnum rest acc h1 h2, ih]
        have hp : ¬ extractCond pw p n := by
          unfold extractCond
          rw [h2]
          simp
        simp [hp]
      | some idx =>
        have hp : extractCond pw p n ↔ n = idx := by
          unfold extractCond
          rw [h2]
          simp [h1, eq_comm]
        rw [extractLoop_step_num rest acc h1 h2]
        by_cases h3 : idx ∈ acc
        · rw [if_pos h3, ih]
          simp only [List.mem_cons, exists_eq_or_imp, hp]
          constructor
          · rintro (h | h)
            · exact Or.inl h
            · exact Or.inr (Or.inr h)
          · rintro (h | h | h)
            · exact Or.inl h
            · exact Or.inl (by rw [h]; exact h3)
            · exact Or.inr h
        · rw [if_neg h3, ih]
          simp only [List.mem_cons, exists_eq_or_imp, hp, List.mem_append,
            List.mem_singleton]
          tauto
    · rw [extractLoop_step_miss rest acc h1, ih]
      have hp : ¬ extractCond pw p n := fun hc => h1 hc.1
      simp [hp]

theorem extractLoop_nodup (pw : Str) :
    ∀ (ps : List Str) (acc : List Int), acc.Nodup → (extractLoop pw ps acc).Nodup := by
  intro ps
  induction ps with
  | nil => intro acc h; simpa [extractLoop] using h
  | cons p rest ih =>
    intro acc h
    by_cases h1 : strHasPref p (pw ++ ['.']) = true
    · cases h2 : atoi ((p.drop (pw.length + 1)).takeWhile (fun c => c ≠ '.')) with
      | none => rw [extractLoop_step_nonnum rest acc h1 h2]; exact ih acc h
      | some idx =>
        rw [extractLoop_step_num rest acc h1 h2]
        by_cases h3 : idx ∈ acc
        · rw [if_pos h3]; exact ih acc h
        · rw [if_neg h3]
          exact ih _ (by simp [List.nodup_append, h, h3])
    · rw [extractLoop_step_miss rest acc h1]; exact ih acc h

theorem extract_indices_negative :
    extractIndices "A.".data ["A.-1".data] = [-1] ∧
    (-1 : Int) ∈ extractIndices "A.".data ["A.-1".data] ∧ (-1 : Int) < 0 := by
  refine ⟨by decide, by decide, by decide⟩

/-- C5 (amended): `extractIndices` returns exactly the sorted-ascending,
duplicate-free set of integers `n` — possibly negative, since
`strconv.Atoi` accepts an optional sign — such that some identifier
begins with the (trimmed) prefix plus separator and the text following
it up to the next separator (or end of string) parses as `n`;
identifiers not beginning with prefix-plus-separator and non-numeric
segments contribute nothing. -/
theorem extract_indices_spec (dp : Str) (names : List Str) :
    (extractIndices dp names).Sorted (· ≤ ·) ∧
    (extractIndices dp names).Nodup ∧
    (∀ n : Int, n ∈ extractIndices dp names ↔
      ∃ id ∈ names, extractCond (trimSuffixDot dp) id n) := by
  refine ⟨sortInts_sorted _, ?_, ?_⟩
  · exact ((sortInts_perm _).nodup_iff).mpr (extractLoop_nodup _ _ [] (by simp))
  · intro n
    rw [extractIndices]
    rw [(sortInts_perm _).mem_iff, extractLoop_mem]
    simp

/-! ## Claims C4 and C10: `Add` -/

/-- `addLoop` on a list containing an empty path: the paths before the
first empty one are inserted, then the call stops with
`ErrInvalidPath`. -/
theorem addLoop_spec_error :
    ∀ (ps : List Str) (e : Expander), ([] : Str) ∈ ps →
      addLoop e ps = (some GoErr.errInvalidPath,
        { e with root := (ps.takeWhile (fun q => decide (q ≠ []))).foldl addPath e.root }) := by
  intro ps
  induction ps with
  | nil => intro e h; simp at h
  | cons p rest ih =>
    intro e h
    by_cases hp : p = []
    · subst hp
      rw [addLoop]
      simp
    · rw [addLoop]
      rw [if_neg hp]
      have hmem : ([] : Str) ∈ rest := by
        rcases List.mem_cons.mp h with h' | h'
        · exact absurd h'.symm hp
        · exact h'
      rw [ih _ hmem]
      simp [hp]

/-- `addLoop` on a list of non-empty paths inserts every path and
returns no error. -/
theorem addLoop_spec_ok :
    ∀ (ps : List Str) (e : Expander), ([] : Str) ∉ ps →
      addLoop e ps = (none, { e with root := ps.foldl addPath e.root }) := by
  intro ps
  induction ps with
  | nil => intro e _; rw [addLoop]; rfl
  | cons p rest ih =>
    intro e h
    have hp : p ≠ [] := fun hc => h (by simp [hc])
    rw [addLoop, if_neg hp, ih _ (fun hc => h (List.mem_cons_of_mem _ hc))]
    simp

/-- C4 (amended): `Add` fails fast with `InvalidPattern` on the first
empty pattern, but the call is not atomic: every pattern preceding the
first empty one has already been merged into the tree and the
completion flag has been cleared; the cache, pending queue, processed
set and expanded paths are unchanged (the discovery-prefix recompute is
skipped on error). -/
theorem add_fails_fast_not_atomic :
    ∀ (e : Expander) (ps : List Str), ([] : Str) ∈ ps →
      Add e ps = (some GoErr.errInvalidPath,
        { e with
            isComplete := false
            root := (ps.takeWhile (fun q => decide (q ≠ []))).foldl addPath e.root }) := by
  intro e ps hmem
  have hne : ps ≠ [] := by rintro rfl; simp at hmem
  unfold Add
  rw [if_neg hne]
  rw [addLoop_spec_error _ _ hmem]

/-- Witness for C4's amended theorem at a concrete input. -/
theorem add_fails_fast_not_atomic_witness :
    Add Expander.empty ["A".data, ([] : Str)] = (some GoErr.errInvalidPath,
      { Expander.empty with
          isComplete := false
          root := ((["A".data, ([] : Str)] : List Str).takeWhile
            (fun q => decide (q ≠ []))).foldl addPath Expander.empty.root }) :=
  add_fails_fast_not_atomic Expander.empty _ (by simp)

/-- C4 counterexample.  The claim says a call containing an invalid
pattern is rejected atomically with no state change.  `Add(["A", ""])`
on a completed fresh engine returns `InvalidPattern` but has already
inserted `"A"` into the tree (the root gains a child) and cleared the
completion flag. -/
theorem add_partial_on_invalid :
    (Add { Expander.empty with isComplete := true } ["A".data, ([] : Str)]).1 =
      some GoErr.errInvalidPath ∧
    (Add { Expander.empty with isComplete := true } ["A".data, ([] : Str)]).2.root.children ≠
      pathForest.nil ∧
    ({ Expander.empty with isComplete := true } : Expander).root.children = pathForest.nil ∧
    (Add { Expander.empty with isComplete := true } ["A".data, ([] : Str)]).2.isComplete = false := by
  have hne : (["A".data, ([] : Str)] : List Str) ≠ [] := by simp
  have h : Add { Expander.empty with isComplete := true } ["A".data, ([] : Str)] =
      (some GoErr.errInvalidPath,
        { ({ Expander.empty with isComplete := true } : Expander) with
            isComplete := false
            root := ((["A".data, ([] : Str)] : List Str).takeWhile
              (fun q => decide (q ≠ []))).foldl addPath Expander.empty.root }) := by
    unfold Add
    rw [if_neg hne]
    rw [addLoop_spec_error _ _ (by simp)]
  rw [h]
  refine ⟨rfl, ?_, rfl, rfl⟩
  show (((["A".data, ([] : Str)] : List Str).takeWhile
      (fun q => decide (q ≠ []))).foldl addPath Expander.empty.root).children ≠ pathForest.nil
  simp +decide [Expander.empty, addPath, insertSegs, splitOnDot, pathNode.children,
    pathNode.segment, pathNode.isWildcard, pathNode.isLeaf, pathForest.lookup,
    pathForest.setChild, pathNode.setLeaf, wcSeg]

/-- The successful branch of `Add` in one equation. -/
theorem add_aux_ok (e : Expander) (ps : List Str)
    (hmem : ([] : Str) ∉ ps) (hne : ps ≠ []) :
    Add e ps = (none, generateDiscoveryPathsE
      { e with
          isComplete := false
          root := ps.foldl addPath e.root }) := by
  unfold Add
  rw [if_neg hne, addLoop_spec_ok _ _ hmem]

/-- The failing branch of `Add` in one equation. -/
theorem add_aux_error (e : Expander) (ps : List Str) (hmem : ([] : Str) ∈ ps) :
    Add e ps = (some GoErr.errInvalidPath,
      { e with
          isComplete := false
          root := (ps.takeWhile (fun q => decide (q ≠ []))).foldl addPath e.root }) := by
  unfold Add
  rw [if_neg (by rintro rfl; simp at hmem), addLoop_spec_error _ _ hmem]

/-- C10 (confirmed): `Add` rejects a call iff the list contains the
empty string; the only error it ever returns is `InvalidPattern`; and
when every pattern is non-empty — including patterns with no separator,
a bare wildcard, or consecutive separators — all of them are inserted
into the tree, insertion itself never failing. -/
theorem add_rejects_iff_empty (e : Expander) (ps : List Str) :
    ((Add e ps).1 ≠ none ↔ ([] : Str) ∈ ps) ∧
    ((Add e ps).1 = none ∨ (Add e ps).1 = some GoErr.errInvalidPath) ∧
    (([] : Str) ∉ ps → (Add e ps).2.root = ps.foldl addPath e.root) := by
  by_cases hmem : ([] : Str) ∈ ps
  · rw [add_aux_error e ps hmem]
    exact ⟨by simp [hmem], Or.inr rfl, fun hc => absurd hmem hc⟩
  · by_cases hne : ps = []
    · subst hne
      refine ⟨by simp [Add], Or.inl (by simp [Add]), fun _ => by simp [Add]⟩
    · rw [add_aux_ok e ps hmem hne]
      refine ⟨by simp [hmem], Or.inl rfl, fun _ => ?_⟩
      rw [generateDiscoveryPathsE_root]

/-! ## Claim C7: registering an empty result for an intermediate prefix -/

/-- Registering indices `[]` enqueues nothing. -/
theorem processNextLevel_nil (e : Expander) (dp : Str) :
    processNextLevel e dp [] = e := rfl

/-- General part 1: a successful `Register` of a response with no
extractable indices writes the empty cache entry for the outstanding
prefix, marks it processed, enqueues nothing, and clears the marker. -/
theorem register_empty_spec (e : Expander) (rs : List Str)
    (h1 : e.isComplete = false) (h2 : e.lastDiscoveryPath ≠ [])
    (hex : extractIndices e.lastDiscoveryPath rs = []) :
    Register e rs = (none,
      { e with
          cache := cacheSet e.cache e.lastDiscoveryPath []
          processedDiscoveries := setAdd e.processedDiscoveries e.lastDiscoveryPath
          lastDiscoveryPath := [] }) := by
  unfold Register
  rw [if_neg (by simp [h1]), if_neg h2]
  simp only [hex]
  rfl

/-- General part 2: during expansion, a wildcard node whose prefix is
cached with the empty index set contributes no paths. -/
theorem expandNode_empty_cache (node : pathNode) (cur : Str) (cache : Cache)
    (res : List Str) (hw : node.isWildcard = true)
    (hc : cacheFind cache (if cur ≠ [] then cur ++ ['.'] else cur) = some []) :
    expandNode node cur cache res = res := by
  have hc2 : cacheFind cache (if cur = [] then cur else cur ++ ['.']) = some [] := by
    by_cases h : cur = []
    · simpa [h] using hc
    · simpa [h] using hc
  rw [expandNode]
  simp [hw, hc2]

/-- The tree of the pattern `A.B.*.C.*.D`. -/
def tABCD : pathNode :=
  pathNode.mk [] false false
    (pathForest.cons "A".data
      (pathNode.mk "A".data false false
        (pathForest.cons "B".data
          (pathNode.mk "B".data false false
            (pathForest.cons "*".data
              (pathNode.mk "*".data true false
                (pathForest.cons "C".data
                  (pathNode.mk "C".data false false
                    (pathForest.cons "*".data
                      (pathNode.mk "*".data true false
                        (pathForest.cons "D".data
                          (pathNode.mk "D".data false true .nil) .nil))
                      .nil))
                  .nil))
              .nil))
          .nil))
      .nil)

/-- After `Add(["A.B.*.C.*.D"])`. -/
def rb0 : Expander :=
  { Expander.empty with root := tABCD, pendingDiscoveries := ["A.B.".data] }

/-- After `Next() = ("A.B.", true)`. -/
def rb1 : Expander :=
  { rb0 with pendingDiscoveries := [], lastDiscoveryPath := "A.B.".data }

/-- After `Register(["A.B.1", "A.B.2"])`. -/
def rb2 : Expander :=
  { rb0 with
      cache := [("A.B.".data, [1, 2])]
      pendingDiscoveries := ["A.B.1.C.".data, "A.B.2.C.".data]
      processedDiscoveries := ["A.B.".data] }

/-- After `Next() = ("A.B.1.C.", true)`. -/
def rb3 : Expander :=
  { rb2 with pendingDiscoveries := ["A.B.2.C.".data], lastDiscoveryPath := "A.B.1.C.".data }

/-- After `Register(["A.B.1.C.1", "A.B.1.C.2"])`. -/
def rb4 : Expander :=
  { rb2 with
      cache := [("A.B.".data, [1, 2]), ("A.B.1.C.".data, [1, 2])]
      pendingDiscoveries := ["A.B.2.C.".data]
      processedDiscoveries := ["A.B.".data, "A.B.1.C.".data] }

/-- After `Next() = ("A.B.2.C.", true)`: the sibling branch's prefix is
outstanding. -/
def rb5 : Expander :=
  { rb4 with pendingDiscoveries := [], lastDiscoveryPath := "A.B.2.C.".data }

/-- After `Register([])`: the empty answer is cached for `A.B.2.C.`. -/
def rb6 : Expander :=
  { rb4 with
      cache := [("A.B.".data, [1, 2]), ("A.B.1.C.".data, [1, 2]), ("A.B.2.C.".data, [])]
      pendingDiscoveries := []
      processedDiscoveries := ["A.B.".data, "A.B.1.C.".data, "A.B.2.C.".data] }

/-- After the final `Next() = ("", false)`: only the sibling branch
contributed paths. -/
def rb7 : Expander :=
  { rb6 with
      isComplete := true
      expandedPaths := ["A.B.1.C.1.D".data, "A.B.1.C.2.D".data]
      expandedSet := ["A.B.1.C.1.D".data, "A.B.1.C.2.D".data] }

theorem rb_add : (Add Expander.empty ["A.B.*.C.*.D".data]).2 = rb0 := by
  simp +decide [rb0, tABCD, Add, addLoop, Expander.empty, addPath, insertSegs, splitOnDot,
    generateDiscoveryPathsE, getDiscoveryPaths, collectDiscoveryPaths, collectDiscForest,
    enqueueNew, discPathOf, joinDots, pathNode.children, pathNode.segment, pathNode.isWildcard,
    pathNode.isLeaf, pathForest.lookup, pathForest.setChild, pathNode.setLeaf, wcSeg,
    List.intercalate]

theorem rb_next0 : Next rb0 = (("A.B.".data, true), rb1) := by
  rw [Next_eq_cons_ret (e := rb0) (p := "A.B.".data) (r := [])
    rfl (by simp [rb0, Expander.empty]) (by rfl)]
  rfl

theorem rb_reg1 : (Register rb1 ["A.B.1".data, "A.B.2".data]) = (none, rb2) := by
  unfold Register
  rw [if_neg (by simp [rb1, rb0, Expander.empty]), if_neg (by simp [rb1])]
  simp +decide [rb1, rb0, rb2, tABCD, Expander.empty, extractIndices, extractLoop,
    trimSuffixDot, strHasPref, atoi, atoiDigits, sortInts, cacheSet, setAdd,
    processNextLevel, getNextLevelPaths, findNextWildcard, walkSegs, findNextWildcardFrom,
    fnwfForest, itoa, enqueueNew, pathNode.children, pathNode.segment, pathNode.isWildcard,
    pathNode.isLeaf, pathForest.lookup, wcSeg, Nat.toDigits, Nat.toDigitsCore]

theorem rb_next1 : Next rb2 = (("A.B.1.C.".data, true), rb3) := by
  rw [Next_eq_cons_ret (e := rb2) (p := "A.B.1.C.".data) (r := ["A.B.2.C.".data])
    rfl (by simp [rb2, rb0, Expander.empty]) (by rfl)]
  rfl

theorem rb_reg2 : (Register rb3 ["A.B.1.C.1".data, "A.B.1.C.2".data]) = (none, rb4) := by
  unfold Register
  rw [if_neg (by simp [rb3, rb2, rb0, Expander.empty]), if_neg (by simp [rb3])]
  simp +decide [rb3, rb2, rb0, rb4, tABCD, Expander.empty, extractIndices, extractLoop,
    trimSuffixDot, strHasPref, atoi, atoiDigits, sortInts, cacheSet, setAdd,
    processNextLevel, getNextLevelPaths, findNextWildcard, walkSegs, findNextWildcardFrom,
    fnwfForest, itoa, enqueueNew, pathNode.children, pathNode.segment, pathNode.isWildcard,
    pathNode.isLeaf, pathForest.lookup, wcSeg, Nat.toDigits, Nat.toDigitsCore]

theorem rb_next2 : Next rb4 = (("A.B.2.C.".data, true), rb5) := by
  rw [Next_eq_cons_ret (e := rb4) (p := "A.B.2.C.".data) (r := [])
    rfl (by simp [rb4, rb2, rb0, Expander.empty]) (by rfl)]
  rfl

theorem rb_reg3 : (Register rb5 []) = (none, rb6) := by
  rw [register_empty_spec rb5 [] rfl (by simp [rb5]) (by decide)]
  rfl

theorem rb_next3 : Next rb6 = (([], false), rb7) := by
  rw [Next_eq_nil rfl]
  simp +decide [rb6, rb7, rb4, rb2, rb0, tABCD, Expander.empty, generateExpandedPathsE,
    generateExpandedPathsT, expandNode, expandIdxs, expandForest, cacheFind, dedupLoop,
    sortStrs, itoa, pathNode.children, pathNode.segment, pathNode.isWildcard,
    pathNode.isLeaf, Nat.toDigits, Nat.toDigitsCore, List.insertionSort, List.orderedInsert]

theorem rb_collect : Collect rb7 = ((some ["A.B.1.C.1.D".data, "A.B.1.C.2.D".data], none), rb7) := by
  unfold Collect
  rw [if_pos (show rb7.isComplete = true from rfl)]
  rfl

/-- C7 (confirmed): a successful `Register` of an empty identifier list
writes the empty index set into the cache for the outstanding prefix —
a final answer, marked processed so it is not re-queried — enqueues no
next-level prefixes; during expansion a wildcard node with an empty
cached index set contributes zero paths; and in the two-branch run
`A.B.*.C.*.D` (indices 1,2 at the first level; `[]` registered for
`A.B.2.C.`, identifiers for `A.B.1.C.`), the loop still terminates with
`("", false)` and `Collect` succeeds with exactly the sibling branch's
paths. -/
theorem register_empty_prunes_branch :
    (∀ (e : Expander) (rs : List Str),
      e.isComplete = false → e.lastDiscoveryPath ≠ [] →
      extractIndices e.lastDiscoveryPath rs = [] →
      Register e rs = (none,
        { e with
            cache := cacheSet e.cache e.lastDiscoveryPath []
            processedDiscoveries := setAdd e.processedDiscoveries e.lastDiscoveryPath
            lastDiscoveryPath := [] })) ∧
    (∀ (node : pathNode) (cur : Str) (cache : Cache) (res : List Str),
      node.isWildcard = true →
      cacheFind cache (if cur ≠ [] then cur ++ ['.'] else cur) = some [] →
      expandNode node cur cache res = res) ∧
    (Register rb5 [] = (none, rb6) ∧
      cacheFind rb6.cache "A.B.2.C.".data = some [] ∧
      "A.B.2.C.".data ∈ rb6.processedDiscoveries ∧
      Next rb6 = (([], false), rb7) ∧
      Collect rb7 = ((some ["A.B.1.C.1.D".data, "A.B.1.C.2.D".data], none), rb7)) :=
  ⟨register_empty_spec, expandNode_empty_cache,
    rb_reg3, by decide, by decide, rb_next3, rb_collect⟩

/-- Witness for C7's two general conjuncts at concrete inputs. -/
theorem register_empty_prunes_branch_witness :
    (Register rb5 [] = (none,
      { rb5 with
          cache := cacheSet rb5.cache rb5.lastDiscoveryPath []
          processedDiscoveries := setAdd rb5.processedDiscoveries rb5.lastDiscoveryPath
          lastDiscoveryPath := [] })) ∧
    expandNode (pathNode.mk "*".data true false
        (pathForest.cons "D".data (pathNode.mk "D".data false true .nil) .nil))
      "A.B.2.C".data rb6.cache [] = [] :=
  ⟨register_empty_prunes_branch.1 rb5 [] rfl (by simp [rb5]) (by decide),
    register_empty_prunes_branch.2.1 _ "A.B.2.C".data rb6.cache [] rfl (by decide)⟩

/-! ## Claim C9: `Collect` idempotence, sortedness -/

theorem sortStrs_sorted (l : List Str) : (sortStrs l).Sorted (· ≤ ·) :=
  List.sorted_insertionSort _ l

theorem sortStrs_perm (l : List Str) : List.Perm (sortStrs l) l :=
  List.perm_insertionSort _ l

/-- The dedup loop keeps `expandedPaths` duplicate-free and the
`expandedSet` in sync with it, as the Go code maintains. -/
theorem dedupLoop_spec :
    ∀ (ps paths set : List Str), paths.Nodup → (∀ x, x ∈ set ↔ x ∈ paths) →
      (dedupLoop paths set ps).1.Nodup ∧
      (∀ x, x ∈ (dedupLoop paths set ps).2 ↔ x ∈ (dedupLoop paths set ps).1) := by
  intro ps
  induction ps with
  | nil =>
    intro paths set h hiff
    rw [dedupLoop]
    exact ⟨h, hiff⟩
  | cons p rest ih =>
    intro paths set h hiff
    rw [dedupLoop]
    by_cases hp : p ∈ set
    · rw [if_pos hp]
      exact ih _ _ h hiff
    · rw [if_neg hp]
      apply ih
      · rw [List.nodup_append]
        refine ⟨h, by simp, ?_⟩
        intro x hx
        simp only [List.mem_singleton]
        rintro rfl
        exact hp ((hiff x).mpr hx)
      · intro x
        simp only [List.mem_append, List.mem_singleton, hiff x]

/-- After `generateExpandedPaths`, the expanded-path list is sorted and
duplicate-free, provided the incoming list and set were consistent. -/
theorem generateExpandedPathsE_sorted (e : Expander)
    (h : e.expandedPaths.Nodup) (hiff : ∀ x, x ∈ e.expandedSet ↔ x ∈ e.expandedPaths) :
    (generateExpandedPathsE e).expandedPaths.Sorted (· ≤ ·) ∧
    (generateExpandedPathsE e).expandedPaths.Nodup := by
  unfold generateExpandedPathsE
  refine ⟨sortStrs_sorted _, ?_⟩
  exact ((sortStrs_perm _).nodup_iff).mpr
    (dedupLoop_spec (generateExpandedPathsT e.root e.cache) _ _ h hiff).1

/-- C9 (confirmed): once `Next` has declared completion, `Collect` is
idempotent — it returns the stored expanded-path list without touching
the state, so repeated calls agree — and that list is duplicate-free
and sorted lexicographically ascending. -/
theorem collect_idempotent_sorted (e : Expander)
    (h : e.expandedPaths.Nodup)
    (hiff : ∀ x : Str, x ∈ e.expandedSet ↔ x ∈ e.expandedPaths)
    (hdone : (Next e).1.2 = false) :
    Collect (Next e).2 = ((some (Next e).2.expandedPaths, none), (Next e).2) ∧
    Collect ((Collect (Next e).2).2) = ((some (Next e).2.expandedPaths, none), (Next e).2) ∧
    (Next e).2.expandedPaths.Sorted (· ≤ ·) ∧
    (Next e).2.expandedPaths.Nodup := by
  have hic : (Next e).2.isComplete = true := Next_false_isComplete e hdone
  have hcol : Collect (Next e).2 = ((some (Next e).2.expandedPaths, none), (Next e).2) := by
    unfold Collect
    rw [if_pos hic]
  obtain ⟨e1, he1, hps, hset⟩ := Next_false_expanded e hdone
  have hsn : (Next e).2.expandedPaths.Sorted (· ≤ ·) ∧ (Next e).2.expandedPaths.Nodup := by
    rw [he1]
    exact generateExpandedPathsE_sorted _ (by simpa [hps] using h)
      (by intro x; simpa [hps, hset] using hiff x)
  refine ⟨hcol, ?_, hsn.1, hsn.2⟩
  rw [hcol]
  exact hcol

/-- Witness for C9 at a concrete completed engine. -/
theorem collect_idempotent_sorted_witness :
    Collect (Next cxE1).2 = ((some (Next cxE1).2.expandedPaths, none), (Next cxE1).2) ∧
    Collect ((Collect (Next cxE1).2).2) =
      ((some (Next cxE1).2.expandedPaths, none), (Next cxE1).2) ∧
    (Next cxE1).2.expandedPaths.Sorted (· ≤ ·) ∧
    (Next cxE1).2.expandedPaths.Nodup :=
  collect_idempotent_sorted cxE1 (by simp [cxE1, cxE0, Expander.empty])
    (by intro x; simp [cxE1, cxE0, Expander.empty])
    (by rw [cx_next1])

/-! ### Generic lemmas about splitting and joining on dots -/

theorem splitOnDot_ne_nil (s : Str) : splitOnDot s ≠ [] := by
  cases s with
  | nil => simp [splitOnDot]
  | cons c cs =>
    rw [splitOnDot]
    by_cases h : c = '.'
    · simp [h]
    · simp only [h, if_false]
      cases splitOnDot cs <;> simp

theorem joinDots_nil : joinDots [] = [] := rfl

theorem joinDots_single (x : Str) : joinDots [x] = x := by
  simp [joinDots, List.intercalate, List.intersperse]

theorem joinDots_cons (x y : Str) (ys : List Str) :
    joinDots (x :: y :: ys) = x ++ '.' :: joinDots (y :: ys) := by
  simp [joinDots, List.intercalate, List.intersperse]

theorem joinDots_splitOnDot (s : Str) : joinDots (splitOnDot s) = s := by
  induction s with
  | nil => rfl
  | cons c cs ih =>
    rw [splitOnDot]
    by_cases h : c = '.'
    · subst h
      rw [if_pos rfl]
      obtain ⟨t, ts, hts⟩ : ∃ t ts, splitOnDot cs = t :: ts := by
        cases hs : splitOnDot cs with
        | nil => exact absurd hs (splitOnDot_ne_nil cs)
        | cons t ts => exact ⟨t, ts, rfl⟩
      rw [hts] at ih ⊢
      rw [joinDots_cons]
      simp [ih]
    · rw [if_neg h]
      cases hs : splitOnDot cs with
      | nil => exact absurd hs (splitOnDot_ne_nil cs)
      | cons t ts =>
        rw [hs] at ih
        cases ts with
        | nil =>
          rw [joinDots_single]
          rw [joinDots_single] at ih
          rw [ih]
        | cons u us =>
          rw [joinDots_cons] at ih ⊢
          simp only [List.cons_append]
          rw [ih]

theorem splitOnDot_head (p : Str) (hne : p ≠ []) (hdot : p.head? ≠ some '.') :
    ∃ s ss, splitOnDot p = s :: ss ∧ s ≠ [] := by
  cases p with
  | nil => exact absurd rfl hne
  | cons c cs =>
    have hc : c ≠ '.' := by
      intro hc
      exact hdot (by simp [hc])
    rw [splitOnDot, if_neg hc]
    cases hs : splitOnDot cs with
    | nil => exact absurd hs (splitOnDot_ne_nil cs)
    | cons t ts => exact ⟨c :: t, ts, rfl, by simp⟩

/-! ## Claim C6: no redundant discovery queries -/

/-- The keys of a children map. -/
def forestKeys : pathForest → List Str
  | .nil => []
  | .cons k _ rest => k :: forestKeys rest

mutual
/-- Structural well-formedness of a node as `addPath` builds it: its
wildcard flag agrees with its segment, recursively. -/
def nodeWFb : pathNode → Bool
  | .mk seg w _ c => (w == decide (seg = wcSeg)) && forestWFb c
/-- Each child is keyed by its own segment and well-formed. -/
def forestWFb : pathForest → Bool
  | .nil => true
  | .cons k n rest => (decide (k = n.segment)) && nodeWFb n && forestWFb rest
end

/-- Top-level key discipline: every root child key has a non-empty
first split segment and is not the wildcard. -/
def TP (root : pathNode) : Prop :=
  ∀ k ∈ forestKeys root.children, (splitOnDot k).headI ≠ [] ∧ k ≠ wcSeg

/-- The engine invariant maintained by every reachable state of a run
whose patterns start with a proper literal segment. -/
def EInv (e : Expander) : Prop :=
  (∀ q ∈ e.pendingDiscoveries, q ≠ []) ∧
  (e.isComplete = true → e.pendingDiscoveries = []) ∧
  e.root.segment = [] ∧ e.root.isWildcard = false ∧
  nodeWFb e.root = true ∧ TP e.root

/-- A pattern whose first segment is a non-empty literal (the shape of
every real TR-069 pattern; a leading wildcard or separator makes the
engine enqueue the empty discovery path, which can never be
registered). -/
def GoodPat (p : Str) : Prop :=
  (splitOnDot p).headI ≠ [] ∧ (splitOnDot p).headI ≠ wcSeg

/-- One operation of a disciplined driver run: either add patterns, or
perform a `Next`/`Register` round in which a returned prefix is
immediately registered with the out-of-band response `rs`. -/
inductive DOp : Type where
  | addPats (ps : List Str) : DOp
  | round (rs : List Str) : DOp

def GoodOp : DOp → Prop
  | .addPats ps => ∀ p ∈ ps, GoodPat p
  | .round _ => True

/-- One `Next`/`Register` round: pull the next prefix; if discovery is
still running, register the response for it. Returns the prefix `Next`
handed out, if any. -/
def driveRound (e : Expander) (rs : List Str) : Expander × Option Str :=
  let r := Next e
  if r.1.2 then ((Register r.2 rs).2, some r.1.1) else (r.2, none)

/-- Run a list of operations from a state, collecting every discovery
prefix `Next` handed out. -/
def runOps : Expander → List DOp → Expander × List Str
  | e, [] => (e, [])
  | e, .addPats ps :: rest => runOps (Add e ps).2 rest
  | e, .round rs :: rest =>
    let r := driveRound e rs
    let rec' := runOps r.1 rest
    (rec'.1, r.2.toList ++ rec'.2)

/-! ### Support lemmas for the C6 invariant -/

theorem GoodPat_ne_nil {p : Str} (h : GoodPat p) : p ≠ [] := by
  rintro rfl
  exact h.1 (by simp [splitOnDot])

theorem splitOnDot_no_dot : ∀ (s : Str), ∀ x ∈ splitOnDot s, '.' ∉ x := by
  intro s
  induction s with
  | nil => intro x hx; simp [splitOnDot] at hx; simp [hx]
  | cons c cs ih =>
    intro x hx
    rw [splitOnDot] at hx
    by_cases h : c = '.'
    · rw [if_pos h] at hx
      rcases List.mem_cons.mp hx with rfl | hx'
      · simp
      · exact ih x hx'
    · rw [if_neg h] at hx
      cases hs : splitOnDot cs with
      | nil => exact absurd hs (splitOnDot_ne_nil cs)
      | cons t ts =>
        rw [hs] at hx ih
        rcases List.mem_cons.mp hx with rfl | hx'
        · intro hd
          rcases List.mem_cons.mp hd with h' | h'
          · exact h h'.symm
          · exact ih t (List.mem_cons_self _ _) h'
        · exact ih x (List.mem_cons_of_mem _ hx')

theorem splitOnDot_single {k : Str} (h : '.' ∉ k) : splitOnDot k = [k] := by
  induction k with
  | nil => rfl
  | cons c cs ih =>
    rw [splitOnDot, if_neg (fun hc => h (by simp [hc]))]
    rw [ih (fun hc => h (List.mem_cons_of_mem _ hc))]

theorem splitOnDot_append (a b : Str) :
    splitOnDot (a ++ '.' :: b) = splitOnDot a ++ splitOnDot b := by
  induction a with
  | nil => simp [splitOnDot]
  | cons c cs ih =>
    by_cases h : c = '.'
    · subst h
      rw [List.cons_append, splitOnDot, if_pos rfl, splitOnDot, if_pos rfl]
      exact congrArg _ ih
    · simp only [List.cons_append]
      rw [splitOnDot, if_neg h, ih]
      rw [splitOnDot, if_neg h]
      cases hs : splitOnDot cs with
      | nil => exact absurd hs (splitOnDot_ne_nil cs)
      | cons t ts => simp

theorem splitOnDot_headI_append (a b : Str) :
    (splitOnDot (a ++ '.' :: b)).headI = (splitOnDot a).headI := by
  rw [splitOnDot_append]
  cases hs : splitOnDot a with
  | nil => exact absurd hs (splitOnDot_ne_nil a)
  | cons t ts => simp

theorem nodeWFb_spec {n : pathNode} (h : nodeWFb n = true) :
    n.isWildcard = decide (n.segment = wcSeg) ∧ forestWFb n.children = true := by
  cases n with
  | mk s w l c =>
    rw [nodeWFb] at h
    simp only [Bool.and_eq_true, beq_iff_eq] at h
    exact ⟨h.1, h.2⟩

theorem forestWFb_spec {k : Str} {n : pathNode} {rest : pathForest}
    (h : forestWFb (.cons k n rest) = true) :
    k = n.segment ∧ nodeWFb n = true ∧ forestWFb rest = true := by
  rw [forestWFb] at h
  simp only [Bool.and_eq_true, decide_eq_true_eq] at h
  exact ⟨h.1.1, h.1.2, h.2⟩

theorem discPathOf_wc (cur : Str) (hcur : cur ≠ []) :
    discPathOf ((cur ++ ['.']) ++ wcSeg) = cur ++ ['.'] := by
  unfold discPathOf
  have h1 : (cur ++ ['.']) ++ wcSeg = cur ++ '.' :: wcSeg := by simp [wcSeg]
  rw [h1, splitOnDot_append]
  rw [show splitOnDot wcSeg = [wcSeg] from rfl]
  simp only [List.dropLast_concat, joinDots_splitOnDot]
  simp [hcur]

/-- The non-wildcard branch of `collectDiscoveryPaths` in one
equation. -/
theorem collectDiscoveryPaths_lit (node : pathNode) (cur : Str) (paths : List Str)
    (hw : node.isWildcard = false) :
    collectDiscoveryPaths node cur paths =
      collectDiscForest node.children
        (if node.segment ≠ [] then
          (if cur ≠ [] then cur ++ ['.'] else cur) ++ node.segment
         else cur) paths := by
  rw [collectDiscoveryPaths]
  simp [hw]

mutual
/-- Below the root, every discovery path the walk emits is non-empty,
because the accumulated path keeps a non-empty first segment. -/
theorem collectDisc_ne_node (node : pathNode) (cur : Str) (paths : List Str)
    (hwf : nodeWFb node = true) (hcur : cur ≠ [])
    (hhead : (splitOnDot cur).headI ≠ []) (hpaths : ∀ q ∈ paths, q ≠ []) :
    ∀ q ∈ collectDiscoveryPaths node cur paths, q ≠ [] := by
  by_cases hw : node.isWildcard = true
  · have hseg : node.segment = wcSeg := by
      have h1 := (nodeWFb_spec hwf).1
      rw [hw] at h1
      exact of_decide_eq_true h1.symm
    rw [collectDiscoveryPaths]
    simp only [hseg, hw, if_true]
    rw [if_pos (show wcSeg ≠ [] by simp [wcSeg]), if_pos hcur]
    rw [discPathOf_wc cur hcur]
    intro q hq
    by_cases hmem : cur ++ ['.'] ∈ paths
    · rw [if_pos hmem] at hq
      exact hpaths q hq
    · rw [if_neg hmem] at hq
      rcases List.mem_append.mp hq with h' | h'
      · exact hpaths q h'
      · rw [List.mem_singleton.mp h']
        simp [hcur]
  · rw [collectDiscoveryPaths_lit node cur paths (by simpa using hw)]
    by_cases hseg : node.segment = []
    · rw [if_neg (by simp [hseg])]
      exact collectDisc_ne_forest node.children cur paths (nodeWFb_spec hwf).2
        hcur hhead hpaths
    · rw [if_pos (by simpa using hseg), if_pos hcur]
      have hassoc : (cur ++ ['.']) ++ node.segment = cur ++ '.' :: node.segment := by simp
      rw [hassoc]
      exact collectDisc_ne_forest node.children _ paths (nodeWFb_spec hwf).2
        (by simp) (by rw [splitOnDot_headI_append]; exact hhead) hpaths
termination_by sizeOf node
decreasing_by all_goals exact sizeOf_children_lt node
/-- Forest version of `collectDisc_ne_node`. -/
theorem collectDisc_ne_forest (f : pathForest) (cur : Str) (paths : List Str)
    (hwf : forestWFb f = true) (hcur : cur ≠ [])
    (hhead : (splitOnDot cur).headI ≠ []) (hpaths : ∀ q ∈ paths, q ≠ []) :
    ∀ q ∈ collectDiscForest f cur paths, q ≠ [] := by
  match f with
  | .nil =>
    rw [collectDiscForest]
    exact hpaths
  | .cons k c rest =>
    rw [collectDiscForest]
    obtain ⟨_, hc, hrest⟩ := forestWFb_spec hwf
    exact collectDisc_ne_forest rest cur _ hrest hcur hhead
      (collectDisc_ne_node c cur paths hc hcur hhead hpaths)
termination_by sizeOf f
decreasing_by all_goals simp_wf <;> omega
end

/-- At the top level (accumulated path still empty), the key discipline
`TP` keeps every emitted discovery path non-empty. -/
theorem collectDisc_ne_top (f : pathForest) :
    ∀ paths : List Str, forestWFb f = true →
      (∀ k ∈ forestKeys f, (splitOnDot k).headI ≠ [] ∧ k ≠ wcSeg) →
      (∀ q ∈ paths, q ≠ []) →
      ∀ q ∈ collectDiscForest f [] paths, q ≠ [] := by
  match f with
  | .nil =>
    intro paths _ _ hpaths
    rw [collectDiscForest]
    exact hpaths
  | .cons k c rest =>
    intro paths hwf htp hpaths
    rw [collectDiscForest]
    obtain ⟨hk, hc, hrest⟩ := forestWFb_spec hwf
    have hkp := htp k (by rw [forestKeys]; exact List.mem_cons_self _ _)
    have hkne : k ≠ [] := by
      rintro rfl
      exact hkp.1 (by rfl)
    have hwseg : c.isWildcard = false := by
      have h1 := (nodeWFb_spec hc).1
      rw [← hk] at h1
      rw [h1]
      simp [hkp.2]
    have hinner : ∀ q ∈ collectDiscoveryPaths c [] paths, q ≠ [] := by
      rw [collectDiscoveryPaths_lit c [] paths hwseg]
      rw [if_pos (show c.segment ≠ [] from hk ▸ hkne), if_neg (by simp)]
      have hnilapp : ([] : Str) ++ c.segment = c.segment := by simp
      rw [hnilapp, ← hk]
      exact collectDisc_ne_forest c.children k paths (nodeWFb_spec hc).2 hkne hkp.1 hpaths
    exact collectDisc_ne_top rest _ hrest
      (fun k' hk' => htp k' (by rw [forestKeys]; exact List.mem_cons_of_mem _ hk')) hinner
termination_by sizeOf f
decreasing_by all_goals simp_wf <;> omega

/-- Under the invariant's tree conditions, every discovery path the
tree generates is non-empty. -/
theorem getDiscoveryPaths_ne (root : pathNode)
    (hseg : root.segment = []) (hw : root.isWildcard = false)
    (hwf : nodeWFb root = true) (htp : TP root) :
    ∀ q ∈ getDiscoveryPaths root, q ≠ [] := by
  unfold getDiscoveryPaths
  rw [collectDiscoveryPaths_lit root [] [] hw]
  rw [if_neg (by simp [hseg])]
  exact collectDisc_ne_top root.children [] (nodeWFb_spec hwf).2 htp (by simp)

/-! ### Preservation of the tree invariants under insertion -/

theorem lookup_wf (f : pathForest) :
    ∀ (k : Str) (c : pathNode), forestWFb f = true →
      f.lookup k = some c → c.segment = k ∧ nodeWFb c = true := by
  match f with
  | .nil =>
    intro k c _ h
    rw [pathForest.lookup] at h
    exact Option.noConfusion h
  | .cons k' n rest =>
    intro k c hwf h
    obtain ⟨hk', hn, hrest⟩ := forestWFb_spec hwf
    rw [pathForest.lookup] at h
    by_cases he : k' = k
    · rw [if_pos he] at h
      cases h
      exact ⟨by rw [← hk', he], hn⟩
    · rw [if_neg he] at h
      exact lookup_wf rest k c hrest h
termination_by sizeOf f
decreasing_by all_goals simp_wf <;> omega

theorem setChild_wf (f : pathForest) :
    ∀ (k : Str) (c : pathNode), forestWFb f = true →
      c.segment = k → nodeWFb c = true → forestWFb (f.setChild k c) = true := by
  match f with
  | .nil =>
    intro k c _ hseg hc
    rw [pathForest.setChild, forestWFb, forestWFb]
    simp [hseg, hc]
  | .cons k' n rest =>
    intro k c hwf hseg hc
    obtain ⟨hk', hn, hrest⟩ := forestWFb_spec hwf
    rw [pathForest.setChild]
    by_cases he : k' = k
    · rw [if_pos he]
      rw [forestWFb]
      simp [he, hseg, hc, hrest]
    · rw [if_neg he]
      rw [forestWFb]
      simp only [Bool.and_eq_true, decide_eq_true_eq]
      exact ⟨⟨hk', hn⟩, setChild_wf rest k c hrest hseg hc⟩
termination_by sizeOf f
decreasing_by all_goals simp_wf <;> omega

@[simp] theorem setLeaf_segment (n : pathNode) : n.setLeaf.segment = n.segment := by
  cases n; rfl

@[simp] theorem setLeaf_isWildcard (n : pathNode) : n.setLeaf.isWildcard = n.isWildcard := by
  cases n; rfl

theorem setLeaf_wf (n : pathNode) (h : nodeWFb n = true) : nodeWFb n.setLeaf = true := by
  cases n with
  | mk s w l c =>
    rw [pathNode.setLeaf]
    rw [nodeWFb] at h ⊢
    exact h

theorem insertSegs_wf :
    ∀ (segs : List Str) (node : pathNode), nodeWFb node = true →
      nodeWFb (insertSegs node segs) = true ∧
      (insertSegs node segs).segment = node.segment ∧
      (insertSegs node segs).isWildcard = node.isWildcard := by
  intro segs
  induction segs with
  | nil => intro node h; rw [insertSegs]; exact ⟨h, rfl, rfl⟩
  | cons seg rest ih =>
    intro node h
    have hbeq : (node.isWildcard == decide (node.segment = wcSeg)) = true := by
      rw [(nodeWFb_spec h).1]
      simp
    have hmain : ∀ c1 : pathNode, c1.segment = seg → nodeWFb c1 = true →
        nodeWFb (pathNode.mk node.segment node.isWildcard node.isLeaf
          (node.children.setChild seg (insertSegs c1 rest))) = true := by
      intro c1 hc1seg hc1wf
      obtain ⟨h2wf, h2seg, _⟩ := ih c1 hc1wf
      rw [nodeWFb]
      simp only [Bool.and_eq_true]
      exact ⟨hbeq, setChild_wf node.children seg (insertSegs c1 rest)
        (nodeWFb_spec h).2 (by rw [h2seg, hc1seg]) h2wf⟩
    cases hl : node.children.lookup seg with
    | some c =>
      obtain ⟨hcseg, hcwf⟩ := lookup_wf node.children seg c (nodeWFb_spec h).2 hl
      rw [insertSegs]
      simp only [hl]
      by_cases hr : rest = []
      · subst hr
        rw [if_pos rfl]
        exact ⟨hmain c.setLeaf (by rw [setLeaf_segment, hcseg]) (setLeaf_wf c hcwf),
          rfl, rfl⟩
      · rw [if_neg hr]
        exact ⟨hmain c hcseg hcwf, rfl, rfl⟩
    | none =>
      rw [insertSegs]
      simp only [hl]
      by_cases hr : rest = []
      · subst hr
        rw [if_pos rfl]
        refine ⟨hmain ((pathNode.mk seg (decide (seg = wcSeg))
            (decide (([] : List Str) = [])) .nil).setLeaf) rfl (setLeaf_wf _ ?_), rfl, rfl⟩
        rw [nodeWFb]
        simp [forestWFb]
      · rw [if_neg hr]
        refine ⟨hmain (pathNode.mk seg (decide (seg = wcSeg))
            (decide (rest = [])) .nil) rfl ?_, rfl, rfl⟩
        rw [nodeWFb]
        simp [forestWFb]

theorem setChild_keys (f : pathForest) :
    ∀ (k : Str) (c : pathNode),
      ∀ x ∈ forestKeys (f.setChild k c), x = k ∨ x ∈ forestKeys f := by
  match f with
  | .nil =>
    intro k c x hx
    rw [pathForest.setChild, forestKeys, forestKeys] at hx
    rcases List.mem_cons.mp hx with h | h
    · exact Or.inl h
    · simp at h
  | .cons k' n rest =>
    intro k c x hx
    rw [pathForest.setChild] at hx
    by_cases he : k' = k
    · rw [if_pos he, forestKeys] at hx
      exact Or.inr (by rw [forestKeys]; exact hx)
    · rw [if_neg he, forestKeys] at hx
      rcases List.mem_cons.mp hx with h | h
      · exact Or.inr (by rw [forestKeys]; exact h ▸ List.mem_cons_self _ _)
      · rcases setChild_keys rest k c x h with h' | h'
        · exact Or.inl h'
        · exact Or.inr (by rw [forestKeys]; exact List.mem_cons_of_mem _ h')
termination_by sizeOf f
decreasing_by all_goals simp_wf <;> omega

theorem insertSegs_children_setChild (node : pathNode) (s : Str) (rest : List Str) :
    ∃ c : pathNode, (insertSegs node (s :: rest)).children = node.children.setChild s c := by
  rw [insertSegs]
  exact ⟨_, rfl⟩

theorem insertSegs_keys (node : pathNode) (s : Str) (rest : List Str) :
    ∀ x ∈ forestKeys (insertSegs node (s :: rest)).children,
      x = s ∨ x ∈ forestKeys node.children := by
  intro x hx
  obtain ⟨c, hc⟩ := insertSegs_children_setChild node s rest
  rw [hc] at hx
  exact setChild_keys node.children s c x hx

/-- `addPath` with a pattern whose first segment is a proper literal
preserves all tree invariants. -/
theorem addPath_inv (root : pathNode) (p : Str)
    (hseg : root.segment = []) (hw : root.isWildcard = false)
    (hwf : nodeWFb root = true) (htp : TP root) (hg : GoodPat p) :
    (addPath root p).segment = [] ∧ (addPath root p).isWildcard = false ∧
    nodeWFb (addPath root p) = true ∧ TP (addPath root p) := by
  unfold addPath
  cases hs : splitOnDot p with
  | nil => exact absurd hs (splitOnDot_ne_nil p)
  | cons s ss =>
    obtain ⟨h1, h2, h3⟩ := insertSegs_wf (s :: ss) root hwf
    refine ⟨by rw [h2, hseg], by rw [h3, hw], h1, ?_⟩
    intro k hk
    rcases insertSegs_keys root s ss k hk with rfl | hmem
    · have hdotfree : '.' ∉ k := splitOnDot_no_dot p k (hs ▸ List.mem_cons_self _ _)
      have hhead : (splitOnDot p).headI = k := by rw [hs]; rfl
      rw [splitOnDot_single hdotfree]
      constructor
      · show k ≠ []
        rw [← hhead]
        exact hg.1
      · rw [← hhead]
        exact hg.2
    · exact htp k hmem

/-! ### Invariant preservation through the API calls -/

theorem setAdd_mem_self (l : List Str) (x : Str) : x ∈ setAdd l x := by
  unfold setAdd
  split
  · assumption
  · exact List.mem_append_right _ (List.mem_singleton.mpr rfl)

theorem setAdd_mem_of_mem (l : List Str) (x : Str) : ∀ q ∈ l, q ∈ setAdd l x := by
  intro q hq
  unfold setAdd
  split
  · exact hq
  · exact List.mem_append_left _ hq

theorem foldl_addPath_inv :
    ∀ (ps : List Str) (root : pathNode), (∀ p ∈ ps, GoodPat p) →
      root.segment = [] → root.isWildcard = false →
      nodeWFb root = true → TP root →
      (ps.foldl addPath root).segment = [] ∧ (ps.foldl addPath root).isWildcard = false ∧
      nodeWFb (ps.foldl addPath root) = true ∧ TP (ps.foldl addPath root) := by
  intro ps
  induction ps with
  | nil => intro root _ h1 h2 h3 h4; exact ⟨h1, h2, h3, h4⟩
  | cons p rest ih =>
    intro root hg h1 h2 h3 h4
    obtain ⟨g1, g2, g3, g4⟩ := addPath_inv root p h1 h2 h3 h4 (hg p (List.mem_cons_self _ _))
    simp only [List.foldl_cons]
    exact ih (addPath root p) (fun q hq => hg q (List.mem_cons_of_mem _ hq)) g1 g2 g3 g4

/-- The pending queue produced by `generateDiscoveryPaths` in one
equation. -/
theorem generateDiscoveryPathsE_pending (e : Expander) :
    (generateDiscoveryPathsE e).pendingDiscoveries =
      enqueueNew e.processedDiscoveries e.pendingDiscoveries (getDiscoveryPaths e.root) := rfl

/-- The pending queue produced by `processNextLevel` in one equation. -/
theorem processNextLevel_pending (e : Expander) (dp : Str) (idxs : List Int) :
    (processNextLevel e dp idxs).pendingDiscoveries =
      enqueueNew e.processedDiscoveries e.pendingDiscoveries
        (getNextLevelPaths e.root dp idxs) := rfl

/-- Recomputing discovery paths preserves the engine invariant as long
as the tree side of the invariant holds and the engine is not marked
complete. -/
theorem genDisc_inv (e : Expander) (he1 : ∀ q ∈ e.pendingDiscoveries, q ≠ [])
    (hic : e.isComplete = false)
    (h3 : e.root.segment = []) (h4 : e.root.isWildcard = false)
    (h5 : nodeWFb e.root = true) (h6 : TP e.root) :
    EInv (generateDiscoveryPathsE e) := by
  refine ⟨?_, ?_, by rw [generateDiscoveryPathsE_root]; exact h3,
    by rw [generateDiscoveryPathsE_root]; exact h4,
    by rw [generateDiscoveryPathsE_root]; exact h5, ?_⟩
  · rw [generateDiscoveryPathsE_pending]
    exact enqueueNew_forall _ _ _ he1 (getDiscoveryPaths_ne e.root h3 h4 h5 h6)
  · intro h
    rw [generateDiscoveryPathsE_isComplete, hic] at h
    exact absurd h (by simp)
  · show TP (generateDiscoveryPathsE e).root
    rw [generateDiscoveryPathsE_root]
    exact h6

/-- `Add` with patterns whose first segments are proper literals
preserves the engine invariant and never touches the processed set. -/
theorem Add_inv (e : Expander) (ps : List Str)
    (hg : ∀ p ∈ ps, GoodPat p) (he : EInv e) :
    EInv (Add e ps).2 ∧
      (Add e ps).2.processedDiscoveries = e.processedDiscoveries := by
  by_cases hne : ps = []
  · subst hne
    have hsimp : Add e [] = (none, e) := by unfold Add; rw [if_pos rfl]
    rw [hsimp]
    exact ⟨he, rfl⟩
  · have hmem : ([] : Str) ∉ ps := fun hc => GoodPat_ne_nil (hg [] hc) rfl
    rw [add_aux_ok e ps hmem hne]
    obtain ⟨g1, g2, g3, g4⟩ :=
      foldl_addPath_inv ps e.root hg he.2.2.1 he.2.2.2.1 he.2.2.2.2.1 he.2.2.2.2.2
    constructor
    · exact genDisc_inv _ he.1 rfl g1 g2 g3 g4
    · rw [generateDiscoveryPathsE_processed]

/-- `Next` preserves the engine invariant. -/
theorem Next_inv (e : Expander) (he : EInv e) : EInv (Next e).2 := by
  refine ⟨(Next_pending_ne e he.1).2, ?_, by rw [Next_root]; exact he.2.2.1,
    by rw [Next_root]; exact he.2.2.2.1, by rw [Next_root]; exact he.2.2.2.2.1, ?_⟩
  · intro h
    by_cases hm : (Next e).1.2 = true
    · rw [Next_true_isComplete e hm] at h
      have hp := he.2.1 h
      rw [Next_eq_nil hp] at hm
      simp at hm
    · exact Next_false_pending e (by simpa using hm)
  · show TP (Next e).2.root
    rw [Next_root]
    exact he.2.2.2.2.2

/-- The successful branch of `Register`, one field at a time. -/
theorem Register_success_fields (e : Expander) (rs : List Str)
    (h1 : e.isComplete = false) (h2 : e.lastDiscoveryPath ≠ []) :
    (Register e rs).1 = none ∧
    (Register e rs).2.root = e.root ∧
    (Register e rs).2.isComplete = e.isComplete ∧
    (Register e rs).2.processedDiscoveries =
      setAdd e.processedDiscoveries e.lastDiscoveryPath ∧
    (Register e rs).2.pendingDiscoveries =
      enqueueNew (setAdd e.processedDiscoveries e.lastDiscoveryPath)
        e.pendingDiscoveries
        (getNextLevelPaths e.root e.lastDiscoveryPath
          (extractIndices e.lastDiscoveryPath rs)) := by
  unfold Register
  rw [if_neg (by simp [h1]), if_neg h2]
  exact ⟨rfl, rfl, rfl, rfl, rfl⟩

theorem driveRound_eq_true (e : Expander) (rs : List Str) (hm : (Next e).1.2 = true) :
    driveRound e rs = ((Register (Next e).2 rs).2, some (Next e).1.1) := by
  unfold driveRound
  rw [if_pos hm]

theorem driveRound_eq_false (e : Expander) (rs : List Str) (hm : (Next e).1.2 = false) :
    driveRound e rs = ((Next e).2, none) := by
  unfold driveRound
  rw [if_neg (by simp [hm])]

/-- A disciplined `Next`/`Register` round preserves the invariant, only
grows the processed set, and marks the returned prefix — which was not
processed when handed out — processed. -/
theorem driveRound_inv (e : Expander) (rs : List Str) (he : EInv e) :
    EInv (driveRound e rs).1 ∧
    (∀ q ∈ e.processedDiscoveries, q ∈ (driveRound e rs).1.processedDiscoveries) ∧
    (∀ p, (driveRound e rs).2 = some p →
      p ∉ e.processedDiscoveries ∧ p ∈ (driveRound e rs).1.processedDiscoveries) := by
  by_cases hm : (Next e).1.2 = true
  · rw [driveRound_eq_true e rs hm]
    have hecF : e.isComplete = false := by
      cases hec : e.isComplete with
      | false => rfl
      | true =>
        have hp := he.2.1 hec
        rw [Next_eq_nil hp] at hm
        simp at hm
    have hic : (Next e).2.isComplete = false := (Next_true_isComplete e hm).trans hecF
    have hlast : (Next e).2.lastDiscoveryPath ≠ [] := by
      rw [Next_true_last e hm]
      exact (Next_pending_ne e he.1).1 hm
    obtain ⟨-, hR, hIc, hPr, hPe⟩ := Register_success_fields (Next e).2 rs hic hlast
    have hen := Next_inv e he
    refine ⟨⟨?_, ?_, by rw [hR, Next_root]; exact he.2.2.1,
        by rw [hR, Next_root]; exact he.2.2.2.1,
        by rw [hR, Next_root]; exact he.2.2.2.2.1, ?_⟩, ?_, ?_⟩
    · rw [hPe]
      exact enqueueNew_forall _ _ _ hen.1 (getNextLevelPaths_ne_nil _ _ _)
    · intro h
      rw [hIc, hic] at h
      exact absurd h (by simp)
    · show TP (Register (Next e).2 rs).2.root
      rw [hR, Next_root]
      exact he.2.2.2.2.2
    · intro q hq
      rw [hPr]
      exact setAdd_mem_of_mem _ _ q (Next_processed_mono e q hq)
    · intro p hp
      have hpe : p = (Next e).1.1 := by injection hp with h; exact h.symm
      subst hpe
      refine ⟨Next_true_not_processed e hm, ?_⟩
      rw [hPr, ← Next_true_last e hm]
      exact setAdd_mem_self _ _
  · have hm' : (Next e).1.2 = false := by simpa using hm
    rw [driveRound_eq_false e rs hm']
    exact ⟨Next_inv e he, Next_processed_mono e, fun p hp => Option.noConfusion hp⟩

/-- Main induction for C6: in a disciplined run over good patterns,
every prefix `Next` hands out is fresh — not yet processed — and is
processed from then on, so the list of handed-out prefixes never
repeats. -/
theorem runOps_good :
    ∀ (ops : List DOp) (e : Expander), (∀ op ∈ ops, GoodOp op) → EInv e →
      (∀ q ∈ e.processedDiscoveries, q ∈ (runOps e ops).1.processedDiscoveries) ∧
      (∀ q ∈ (runOps e ops).2,
        q ∉ e.processedDiscoveries ∧ q ∈ (runOps e ops).1.processedDiscoveries) ∧
      (runOps e ops).2.Nodup := by
  intro ops
  induction ops with
  | nil =>
    intro e _ _
    exact ⟨fun q hq => hq, by simp [runOps], by simp [runOps]⟩
  | cons op rest ih =>
    intro e hg he
    cases op with
    | addPats ps =>
      simp only [runOps]
      obtain ⟨he', hproc'⟩ := Add_inv e ps (hg _ (List.mem_cons_self _ _)) he
      obtain ⟨m1, m2, m3⟩ :=
        ih (Add e ps).2 (fun op hop => hg op (List.mem_cons_of_mem _ hop)) he'
      refine ⟨fun q hq => m1 q (by rw [hproc']; exact hq),
        fun q hq => ⟨fun hqe => (m2 q hq).1 (by rw [hproc']; exact hqe), (m2 q hq).2⟩, m3⟩
    | round rs =>
      simp only [runOps]
      obtain ⟨he', hmono, hsome⟩ := driveRound_inv e rs he
      obtain ⟨m1, m2, m3⟩ :=
        ih (driveRound e rs).1 (fun op hop => hg op (List.mem_cons_of_mem _ hop)) he'
      cases hdr : (driveRound e rs).2 with
      | none =>
        simp only [hdr, Option.toList, List.nil_append]
        exact ⟨fun q hq => m1 q (hmono q hq),
          fun q hq => ⟨fun hqe => (m2 q hq).1 (hmono q hqe), (m2 q hq).2⟩, m3⟩
      | some p =>
        simp only [hdr, Option.toList, List.singleton_append]
        obtain ⟨hpfresh, hpdone⟩ := hsome p hdr
        refine ⟨fun q hq => m1 q (hmono q hq), ?_, ?_⟩
        · intro q hq
          rcases List.mem_cons.mp hq with rfl | hq'
          · exact ⟨hpfresh, m1 q hpdone⟩
          · exact ⟨fun hqe => (m2 q hq').1 (hmono q hqe), (m2 q hq').2⟩
        · rw [List.nodup_cons]
          exact ⟨fun hp' => (m2 p hp').1 hpdone, m3⟩

/-- The fresh expander satisfies the invariant. -/
theorem einv_empty : EInv Expander.empty := by
  refine ⟨by simp [Expander.empty], by simp [Expander.empty], rfl, rfl, ?_, ?_⟩
  · show nodeWFb (pathNode.mk [] false false .nil) = true
    rw [nodeWFb]
    simp +decide [forestWFb, wcSeg]
  · intro k hk
    simp [Expander.empty, forestKeys] at hk

/-! ### The C6 counterexample run and the claim -/

/-- The tree after adding `A.*.B` and then `A.*.C`. -/
def cxTreeABC : pathNode :=
  pathNode.mk [] false false
    (pathForest.cons "A".data
      (pathNode.mk "A".data false false
        (pathForest.cons "*".data
          (pathNode.mk "*".data true false
            (pathForest.cons "B".data (pathNode.mk "B".data false true .nil)
              (pathForest.cons "C".data (pathNode.mk "C".data false true .nil) .nil)))
          .nil))
      .nil)

/-- State after `Add(["A.*.C"])` on `cxE1`, where the prefix `A.` is
still outstanding: `A.` is re-enqueued because it is neither processed
nor pending. -/
def cxE3 : Expander :=
  { cxE1 with root := cxTreeABC, pendingDiscoveries := ["A.".data] }

theorem cx_add2 : (Add cxE1 ["A.*.C".data]).2 = cxE3 := by
  simp +decide [cxE3, cxE1, cxE0, cxTreeABC, cxTreeAB, Add, addLoop, Expander.empty, addPath,
    insertSegs, splitOnDot, generateDiscoveryPathsE, getDiscoveryPaths, collectDiscoveryPaths,
    collectDiscForest, enqueueNew, discPathOf, joinDots, pathNode.children, pathNode.segment,
    pathNode.isWildcard, pathNode.isLeaf, pathForest.lookup, pathForest.setChild,
    pathNode.setLeaf, wcSeg, List.intercalate]

/-- State after one `Add` of the two patterns `A.*.B`, `A.*.C` on a
fresh expander: one pending discovery prefix for the shared ancestor. -/
def cxK1 : Expander :=
  { Expander.empty with root := cxTreeABC, pendingDiscoveries := ["A.".data] }

theorem cx_addK1 : (Add Expander.empty ["A.*.B".data, "A.*.C".data]).2 = cxK1 := by
  simp +decide [cxK1, cxTreeABC, Add, addLoop, Expander.empty, addPath,
    insertSegs, splitOnDot, generateDiscoveryPathsE, getDiscoveryPaths, collectDiscoveryPaths,
    collectDiscForest, enqueueNew, discPathOf, joinDots, pathNode.children, pathNode.segment,
    pathNode.isWildcard, pathNode.isLeaf, pathForest.lookup, pathForest.setChild,
    pathNode.setLeaf, wcSeg, List.intercalate]

theorem cx_addK2 : (Add cxK1 ["A.*.D".data]).2.pendingDiscoveries = ["A.".data] := by
  simp +decide [cxK1, cxTreeABC, Add, addLoop, Expander.empty, addPath,
    insertSegs, splitOnDot, generateDiscoveryPathsE, getDiscoveryPaths, collectDiscoveryPaths,
    collectDiscForest, enqueueNew, discPathOf, joinDots, pathNode.children, pathNode.segment,
    pathNode.isWildcard, pathNode.isLeaf, pathForest.lookup, pathForest.setChild,
    pathNode.setLeaf, wcSeg, List.intercalate]

/-- C6 counterexample.  The claim says `Next()` never returns the same
discovery prefix twice with `hasMore = true` in any single run.  In the
run `Add(["A.*.B"])`, `Next() = ("A.", true)`, `Add(["A.*.C"])`,
`Next()`, the second `Add` re-enqueues `A.` — it is neither processed
(no `Register` happened) nor pending — so the second `Next` hands out
`A.` a second time: a redundant query. -/
theorem next_repeats_prefix_after_interleaved_add :
    (Next cxE0).1 = ("A.".data, true) ∧
    (Next (Add (Next cxE0).2 ["A.*.C".data]).2).1 = ("A.".data, true) := by
  refine ⟨by rw [cx_next0], ?_⟩
  rw [cx_next0]
  show (Next (Add cxE1 ["A.*.C".data]).2).1 = ("A.".data, true)
  rw [cx_add2]
  rw [Next_eq_cons_ret (e := cxE3) (p := "A.".data) (r := [])
    rfl (by simp [cxE3, cxE1, cxE0, Expander.empty]) (by rfl)]

/-- C6 (amended): in a disciplined run — every prefix handed out by
`Next` is registered before any further `Next` or `Add`, and every
pattern's first segment is a non-empty literal — `Next` never hands out
the same discovery prefix twice; and patterns sharing a common wildcard
ancestor, added before any discovery across one or several `Add` calls,
leave exactly one pending discovery prefix for that ancestor. -/
theorem no_redundant_queries_disciplined :
    (∀ ops : List DOp, (∀ op ∈ ops, GoodOp op) →
      (runOps Expander.empty ops).2.Nodup) ∧
    (Add (Add Expander.empty ["A.*.B".data, "A.*.C".data]).2
        ["A.*.D".data]).2.pendingDiscoveries = ["A.".data] := by
  constructor
  · intro ops hg
    exact (runOps_good ops Expander.empty hg einv_empty).2.2
  · rw [cx_addK1]
    exact cx_addK2

/-- Witness for C6's amended theorem at a concrete disciplined run. -/
theorem no_redundant_queries_disciplined_witness :
    (∀ op ∈ [DOp.addPats ["A.*.B".data], DOp.round ["A.1.B".data]], GoodOp op) ∧
    (runOps Expander.empty
      [DOp.addPats ["A.*.B".data], DOp.round ["A.1.B".data]]).2.Nodup := by
  have hg : ∀ op ∈ [DOp.addPats ["A.*.B".data], DOp.round ["A.1.B".data]], GoodOp op := by
    intro op hop
    rcases List.mem_cons.mp hop with rfl | hop2
    · intro p hp
      rw [List.mem_singleton] at hp
      subst hp
      exact ⟨by decide, by decide⟩
    · rcases List.mem_cons.mp hop2 with rfl | hop3
      · exact True.intro
      · simp at hop3
  exact ⟨hg, no_redundant_queries_disciplined.1 _ hg⟩

/-! ## Claim C8: a pattern without wildcards expands to itself -/

/-- The chain of fresh nodes `addPath` creates when inserting a path
into an empty subtree: each node carries one segment, only the last is
a leaf. -/
def chainNode (s : Str) : List Str → pathNode
  | [] => pathNode.mk s (decide (s = wcSeg)) true .nil
  | t :: ts => pathNode.mk s (decide (s = wcSeg)) false (.cons t (chainNode t ts) .nil)

theorem insertSegs_fresh :
    ∀ (ts : List Str) (sg s : Str) (w l : Bool),
      insertSegs (pathNode.mk sg w l .nil) (s :: ts) =
        pathNode.mk sg w l (.cons s (chainNode s ts) .nil) := by
  intro ts
  induction ts with
  | nil =>
    intro sg s w l
    rw [insertSegs, insertSegs]
    simp [pathNode.children, pathForest.lookup, pathForest.setChild, pathNode.setLeaf,
      pathNode.segment, pathNode.isWildcard, pathNode.isLeaf, chainNode]
  | cons t ts' ih =>
    intro sg s w l
    rw [insertSegs]
    simp only [pathNode.children, pathForest.lookup, pathForest.setChild,
      pathNode.segment, pathNode.isWildcard, pathNode.isLeaf]
    rw [if_neg (by simp)]
    rw [ih s t (decide (s = wcSeg)) (decide ((t :: ts' : List Str) = []))]
    simp [chainNode, pathNode.segment, pathNode.isWildcard, pathNode.isLeaf,
      pathForest.setChild]

/-- A chain with no wildcard segments produces no discovery paths. -/
theorem collectDisc_chain_no_wc :
    ∀ (ts : List Str) (s : Str), s ≠ wcSeg → wcSeg ∉ ts →
      ∀ (cur : Str) (paths : List Str),
        collectDiscoveryPaths (chainNode s ts) cur paths = paths := by
  intro ts
  induction ts with
  | nil =>
    intro s hs _ cur paths
    rw [chainNode, collectDiscoveryPaths]
    simp [pathNode.isWildcard, pathNode.children, hs, collectDiscForest]
  | cons t ts' ih =>
    intro s hs hts cur paths
    rw [chainNode, collectDiscoveryPaths]
    simp only [pathNode.isWildcard, pathNode.children, pathNode.segment]
    rw [if_neg (by simp [hs])]
    rw [collectDiscForest, collectDiscForest]
    rw [ih t (fun hc => hts (by simp [hc])) (fun hc => hts (List.mem_cons_of_mem _ hc))]

/-- One step of the path accumulation done by `expandPaths` at a
non-wildcard node. -/
def appSeg (c sg : Str) : Str := (if c ≠ [] then c ++ ['.'] else c) ++ sg

/-- Expanding a wildcard-free chain emits exactly the accumulated
path. -/
theorem expandNode_chain :
    ∀ (ts : List Str) (s : Str), s ≠ wcSeg → wcSeg ∉ ts →
      ∀ (cur : Str) (cache : Cache) (res : List Str),
        expandNode (chainNode s ts) cur cache res =
          res ++ [(s :: ts).foldl appSeg cur] := by
  intro ts
  induction ts with
  | nil =>
    intro s hs _ cur cache res
    rw [chainNode, expandNode]
    simp [pathNode.isWildcard, pathNode.isLeaf, pathNode.segment, hs, appSeg]
  | cons t ts' ih =>
    intro s hs hts cur cache res
    rw [chainNode, expandNode]
    simp only [pathNode.isWildcard, pathNode.segment, pathNode.isLeaf, pathNode.children]
    rw [if_neg (by simp [hs]), if_neg (by simp)]
    rw [expandForest, expandForest]
    rw [ih t (fun hc => hts (by simp [hc])) (fun hc => hts (List.mem_cons_of_mem _ hc))]
    simp [appSeg]

theorem foldl_appSeg_join :
    ∀ (ts : List Str) (c : Str), c ≠ [] → ts.foldl appSeg c = joinDots (c :: ts) := by
  intro ts
  induction ts with
  | nil => intro c _; rw [List.foldl_nil, joinDots_single]
  | cons t ts' ih =>
    intro c hc
    rw [List.foldl_cons]
    have happ : appSeg c t = c ++ '.' :: t := by simp [appSeg, hc]
    rw [happ, ih _ (by simp [hc]), joinDots_cons]
    cases ts' with
    | nil => rw [joinDots_single, joinDots_single]
    | cons u us => rw [joinDots_cons, joinDots_cons]; simp

/-- If the tree generates no discovery paths, the recompute step leaves
the pending queue unchanged. -/
theorem generateDiscoveryPathsE_nil (e : Expander)
    (h : getDiscoveryPaths e.root = []) : generateDiscoveryPathsE e = e := by
  unfold generateDiscoveryPathsE
  rw [h]
  rfl

/-- C8 counterexample.  The claim promises `Collect() = [p]` for every
non-empty wildcard-free pattern, but a pattern starting with the
separator loses its leading empty segments during expansion:
`Add([".A"])` completes immediately and `Collect()` returns `["A"]`,
not `[".A"]`. -/
theorem leading_separator_lost :
    (".A".data : Str) ≠ [] ∧
    wcSeg ∉ splitOnDot ".A".data ∧
    (Add Expander.empty [".A".data]).1 = none ∧
    (Next (Add Expander.empty [".A".data]).2).1 = ([], false) ∧
    (Collect (Next (Add Expander.empty [".A".data]).2).2).1 = (some ["A".data], none) ∧
    (["A".data] : List Str) ≠ [(".A".data : Str)] := by
  have hadd : (Add Expander.empty [".A".data]) = (none,
      { Expander.empty with
          root := pathNode.mk [] false false
            (.cons [] (pathNode.mk [] false false
              (.cons "A".data (pathNode.mk "A".data false true .nil) .nil)) .nil) }) := by
    rw [add_aux_ok Expander.empty [".A".data] (by decide) (by simp)]
    simp +decide [Expander.empty, addPath, insertSegs, splitOnDot, generateDiscoveryPathsE,
      getDiscoveryPaths, collectDiscoveryPaths, collectDiscForest, enqueueNew, discPathOf,
      joinDots, pathNode.children, pathNode.segment, pathNode.isWildcard, pathNode.isLeaf,
      pathForest.lookup, pathForest.setChild, pathNode.setLeaf, wcSeg, List.intercalate]
  refine ⟨by simp, by decide, ?_, ?_, ?_, by simp⟩
  · rw [hadd]
  · rw [hadd, Next_eq_nil rfl]
  · rw [hadd, Next_eq_nil rfl]
    have hgen : ∀ e : Expander, e.isComplete = true →
        Collect e = ((some e.expandedPaths, none), e) := by
      intro e h
      unfold Collect
      rw [if_pos h]
    rw [hgen _ rfl]
    simp +decide [Expander.empty, generateExpandedPathsE, generateExpandedPathsT,
      expandNode, expandIdxs, expandForest, cacheFind, dedupLoop, sortStrs,
      pathNode.children, pathNode.segment, pathNode.isWildcard, pathNode.isLeaf,
      List.insertionSort, List.orderedInsert]

/-- C8 (amended): for every non-empty pattern that does not begin with
the separator and contains no wildcard segment, `Add([p])` succeeds,
the engine produces zero discovery prefixes (the first `Next()` returns
`("", false)`), and `Collect()` returns exactly `[p]`.  (Patterns
beginning with the separator lose their leading empty segments in the
rebuilt output — see the counterexample.) -/
theorem no_wildcard_pattern_identity (p : Str)
    (hne : p ≠ []) (hdot : p.head? ≠ some '.') (hwc : wcSeg ∉ splitOnDot p) :
    (Add Expander.empty [p]).1 = none ∧
    (Next (Add Expander.empty [p]).2).1 = ([], false) ∧
    (Collect (Next (Add Expander.empty [p]).2).2).1 = (some [p], none) := by
  obtain ⟨s, ss, hsplit, hs⟩ := splitOnDot_head p hne hdot
  have hswc : s ≠ wcSeg := by
    intro hc
    exact hwc (hsplit ▸ (hc ▸ List.mem_cons_self _ _))
  have hsswc : wcSeg ∉ ss := fun hc => hwc (hsplit ▸ List.mem_cons_of_mem _ hc)
  have hroot : addPath Expander.empty.root p =
      pathNode.mk [] false false (.cons s (chainNode s ss) .nil) := by
    unfold addPath
    rw [hsplit]
    exact insertSegs_fresh ss [] s false false
  have hdisc : getDiscoveryPaths (pathNode.mk [] false false (.cons s (chainNode s ss) .nil)) = [] := by
    unfold getDiscoveryPaths
    rw [collectDiscoveryPaths]
    simp only [pathNode.isWildcard, pathNode.segment, pathNode.children]
    rw [if_neg (by simp)]
    rw [collectDiscForest, collectDiscForest]
    rw [collectDisc_chain_no_wc ss s hswc hsswc]
  have hadd : Add Expander.empty [p] = (none,
      { Expander.empty with
          root := pathNode.mk [] false false (.cons s (chainNode s ss) .nil) }) := by
    rw [add_aux_ok Expander.empty [p] (by simp [Ne.symm hne]) (by simp)]
    rw [List.foldl_cons, List.foldl_nil, hroot]
    rw [generateDiscoveryPathsE_nil _ hdisc]
    rfl
  have hexp : generateExpandedPathsT
      (pathNode.mk [] false false (.cons s (chainNode s ss) .nil)) [] = [p] := by
    unfold generateExpandedPathsT
    simp only [pathNode.children]
    rw [expandForest, expandForest]
    rw [expandNode_chain ss s hswc hsswc]
    rw [List.foldl_cons]
    have h0 : appSeg [] s = s := by simp [appSeg]
    rw [h0, foldl_appSeg_join ss s hs]
    rw [← hsplit, joinDots_splitOnDot]
    rfl
  refine ⟨by rw [hadd], by rw [hadd, Next_eq_nil rfl], ?_⟩
  rw [hadd, Next_eq_nil rfl]
  have hic : ∀ e : Expander, e.isComplete = true →
      Collect e = ((some e.expandedPaths, none), e) := by
    intro e h
    unfold Collect
    rw [if_pos h]
  rw [hic _ rfl]
  have hfinal : (generateExpandedPathsE
      { ({ Expander.empty with
          root := pathNode.mk [] false false (.cons s (chainNode s ss) .nil) } : Expander) with
        isComplete := true }).expandedPaths = [p] := by
    show sortStrs (dedupLoop [] []
      (generateExpandedPathsT (pathNode.mk [] false false (.cons s (chainNode s ss) .nil)) [])).1 = [p]
    rw [hexp]
    rw [show dedupLoop [] [] [p] = ([p], [p]) from by rw [dedupLoop]; simp [dedupLoop]]
    rfl
  exact congrArg (fun l => ((some l, none) : Option (List Str) × Option GoErr)) hfinal

/-- Witness for C8's amended theorem at a concrete pattern. -/
theorem no_wildcard_pattern_identity_witness :
    (Add Expander.empty ["A.B".data]).1 = none ∧
    (Next (Add Expander.empty ["A.B".data]).2).1 = ([], false) ∧
    (Collect (Next (Add Expander.empty ["A.B".data]).2).2).1 = (some ["A.B".data], none) :=
  no_wildcard_pattern_identity "A.B".data (by simp) (by simp) (by decide)

/-- Witness for C10 at a bare-wildcard pattern and a pattern with
consecutive separators. -/
theorem add_rejects_iff_empty_witness :
    (((Add Expander.empty ["*".data, "A..B".data]).1 ≠ none ↔
        ([] : Str) ∈ [("*".data : Str), "A..B".data]) ∧
      ((Add Expander.empty ["*".data, "A..B".data]).1 = none ∨
        (Add Expander.empty ["*".data, "A..B".data]).1 = some GoErr.errInvalidPath)) ∧
    (Add Expander.empty ["*".data, "A..B".data]).2.root =
      [("*".data : Str), "A..B".data].foldl addPath Expander.empty.root :=
  ⟨⟨(add_rejects_iff_empty Expander.empty _).1, (add_rejects_iff_empty Expander.empty _).2.1⟩,
    (add_rejects_iff_empty Expander.empty _).2.2 (by decide)⟩

end TR069
